import Mathlib

/-!
Verification of the EAP (early-abandoning and pruning) MSM distance kernel and the
Proximity Forest 1-NN splitter logic of this repository.

Doubles are modelled by exact rationals (`ℚ`), with `WithTop ℚ` standing for the
extended line with `+∞` (`⊤`).  All additions, `min`s and comparisons performed by the
C++ code on finite doubles are modelled exactly; `nextafter` is modelled by the
identity in the exact-arithmetic idealization (see `exactNextafter`), and is also
kept as an abstract parameter where the claim under scrutiny is about `nextafter`
itself (see `msmUbBlock`).
-/

namespace PF2

/-- `assert(nbcols<=nblines)` style preconditions use plain hypotheses; values of the
series enter only through the three cost closures `dist_lines`, `dist_cols`, `dist`,
exactly as in `internal::msm`. -/
abbrev CostFun := ℕ → ℕ → ℚ

/-! ### The naive full-matrix MSM dynamic program

Spec side of the refinement claim: the naive DP over the whole matrix, with the MSM
recurrence `M(i,j) = min(M(i-1,j-1)+d(i,j), M(i,j-1)+dc(i,j), M(i-1,j)+dl(i,j))`,
first line `M(0,j) = M(0,j-1)+dc(0,j)` and first column `M(i,0) = M(i-1,0)+dl(i,0)`. -/

/-- First line of the naive DP. -/
def naiveRow0 (dc d : CostFun) : ℕ → ℚ
  | 0 => d 0 0
  | j + 1 => naiveRow0 dc d j + dc 0 (j + 1)

/-- Next line of the naive DP, given the previous line. -/
def naiveNext (dl dc d : CostFun) (i : ℕ) (prev : ℕ → ℚ) : ℕ → ℚ
  | 0 => prev 0 + dl i 0
  | j + 1 =>
    min (prev j + d i (j + 1))
      (min (naiveNext dl dc d i prev j + dc i (j + 1)) (prev (j + 1) + dl i (j + 1)))

/-- Line `i` of the naive DP. -/
def naiveRow (dl dc d : CostFun) : ℕ → ℕ → ℚ
  | 0 => naiveRow0 dc d
  | i + 1 => naiveNext dl dc d (i + 1) (naiveRow dl dc d i)

/-- The naive full-matrix MSM dynamic program: cell `(i, j)`. -/
def naiveMsm (dl dc d : CostFun) (i j : ℕ) : ℚ := naiveRow dl dc d i j

/-! ### Embedding of `internal::msm` (src/libtempo/distance/msm.hpp, lines 39-191)

The double-buffered band is modelled by two total functions (the two halves of
`buffer_v`); `next_start`/`prev_pp` and the staged row loop are transcribed
literally.  Loops are driven by a fuel argument that mirrors the loop bound
(`prev_pp - j`, `nbcols - j`, `nblines - i`), with the data-dependent guards kept
inside the body exactly as in the C code. -/

/-- Mid-row state: loop counter `j`, `next_start`, `curr_pp`, the row buffer being
written, and the running `cost` variable. -/
structure Mid where
  j : ℕ
  ns : ℕ
  cpp : ℕ
  buf : ℕ → ℚ
  cost : ℚ

/-- Row-to-row state: the two buffer halves (`prevb` = previous row, `oldb` = the half
about to be overwritten), `next_start`, `prev_pp`, and the `cost`/`j` variables that
survive the main loop for the finalisation check. -/
structure St where
  prevb : ℕ → ℚ
  oldb : ℕ → ℚ
  ns : ℕ
  pp : ℕ
  cost : ℚ
  j : ℕ

/-- Stage 1: while `j == next_start && j < prev_pp`, diagonal and top only.
Fuel is `prev_pp - j` on entry. -/
def stage1 (dl d : CostFun) (ub : WithTop ℚ) (i : ℕ) (prevb : ℕ → ℚ) : ℕ → Mid → Mid
  | 0, m => m
  | fuel + 1, m =>
    if m.j = m.ns then
      let c := min (prevb (m.j - 1) + d i m.j) (prevb m.j + dl i m.j)
      let buf2 := Function.update m.buf m.j c
      if (c : WithTop ℚ) ≤ ub then
        { j := m.j + 1, ns := m.ns, cpp := m.j + 1, buf := buf2, cost := c }
      else
        stage1 dl d ub i prevb fuel
          { j := m.j + 1, ns := m.ns + 1, cpp := m.cpp, buf := buf2, cost := c }
    else m

/-- Stage 2: while `j < prev_pp`, all three predecessors.  Fuel is `prev_pp - j`. -/
def stage2 (dl dc d : CostFun) (ub : WithTop ℚ) (i : ℕ) (prevb : ℕ → ℚ) : ℕ → Mid → Mid
  | 0, m => m
  | fuel + 1, m =>
    let c := min (prevb (m.j - 1) + d i m.j)
      (min (m.cost + dc i m.j) (prevb m.j + dl i m.j))
    let buf2 := Function.update m.buf m.j c
    let cpp2 := if (c : WithTop ℚ) ≤ ub then m.j + 1 else m.cpp
    stage2 dl dc d ub i prevb fuel
      { j := m.j + 1, ns := m.ns, cpp := cpp2, buf := buf2, cost := c }

/-- Stage 3: the cell at `j == prev_pp` (two cases), or the out-of-bounds exit.
`Except.error r` models the early `return r` statements. -/
def stage3 (nl nc : ℕ) (dc d : CostFun) (cutoff ub : WithTop ℚ) (i : ℕ)
    (prevb : ℕ → ℚ) (m : Mid) : Except (WithTop ℚ) Mid :=
  if m.j < nc then
    if m.j = m.ns then
      let c := prevb (m.j - 1) + d i m.j
      let buf2 := Function.update m.buf m.j c
      if (c : WithTop ℚ) ≤ ub then
        Except.ok { j := m.j + 1, ns := m.ns, cpp := m.j + 1, buf := buf2, cost := c }
      else if i = nl - 1 ∧ m.j = nc - 1 ∧ (c : WithTop ℚ) ≤ cutoff then
        Except.error (c : WithTop ℚ)
      else
        Except.error ⊤
    else
      let c := min (prevb (m.j - 1) + d i m.j) (m.cost + dc i m.j)
      let buf2 := Function.update m.buf m.j c
      let cpp2 := if (c : WithTop ℚ) ≤ ub then m.j + 1 else m.cpp
      Except.ok { j := m.j + 1, ns := m.ns, cpp := cpp2, buf := buf2, cost := c }
  else
    if m.j = m.ns then
      if cutoff < (m.cost : WithTop ℚ) then Except.error ⊤
      else Except.ok { m with ns := nc - 1 }
    else Except.ok m

/-- Stage 4: while `j == curr_pp && j < nbcols`, left predecessor only.
Fuel is `nbcols - j`. -/
def stage4 (dc : CostFun) (ub : WithTop ℚ) (i : ℕ) : ℕ → Mid → Mid
  | 0, m => m
  | fuel + 1, m =>
    if m.j = m.cpp then
      let c := m.cost + dc i m.j
      let buf2 := Function.update m.buf m.j c
      let cpp2 := if (c : WithTop ℚ) ≤ ub then m.cpp + 1 else m.cpp
      stage4 dc ub i fuel { j := m.j + 1, ns := m.ns, cpp := cpp2, buf := buf2, cost := c }
    else m

/-- One iteration of the main loop (one line `i ≥ 1`): swap the halves, stage 0 on the
first column, then stages 1-4. -/
def rowStep (nl nc : ℕ) (dl dc d : CostFun) (cutoff ub : WithTop ℚ) (i : ℕ) (st : St) :
    Except (WithTop ℚ) St :=
  let ns := st.ns
  let c0 := st.prevb ns + dl i ns
  let buf0 := Function.update st.oldb ns c0
  let m0 : Mid :=
    if (c0 : WithTop ℚ) ≤ ub then
      { j := ns + 1, ns := ns, cpp := ns + 1, buf := buf0, cost := c0 }
    else
      { j := ns + 1, ns := ns + 1, cpp := ns, buf := buf0, cost := c0 }
  let m1 := stage1 dl d ub i st.prevb (st.pp - m0.j) m0
  let m2 := stage2 dl dc d ub i st.prevb (st.pp - m1.j) m1
  match stage3 nl nc dc d cutoff ub i st.prevb m2 with
  | Except.error r => Except.error r
  | Except.ok m3 =>
    let m4 := stage4 dc ub i (nc - m3.j) m3
    Except.ok { prevb := m4.buf, oldb := st.prevb, ns := m4.ns, pp := m4.cpp,
                cost := m4.cost, j := m4.j }

/-- The main loop over lines `i = 1 .. nblines-1` followed by the finalisation check.
Fuel is `nblines - i`. -/
def rowsGo (nl nc : ℕ) (dl dc d : CostFun) (cutoff ub : WithTop ℚ) :
    ℕ → ℕ → St → WithTop ℚ
  | 0, _, st => if st.j = nc ∧ (st.cost : WithTop ℚ) ≤ cutoff then (st.cost : WithTop ℚ) else ⊤
  | fuel + 1, i, st =>
    match rowStep nl nc dl dc d cutoff ub i st with
    | Except.error r => r
    | Except.ok st2 => rowsGo nl nc dl dc d cutoff ub fuel (i + 1) st2

/-- The first line (`j = 1 .. nbcols-1`, left predecessor only, `break` on `> ub`).
Fuel is `nbcols - j`.  Returns the buffer, `prev_pp`, `cost` and `j`. -/
def line0go (dc : CostFun) (ub : WithTop ℚ) : ℕ → ℕ → ℚ → (ℕ → ℚ) → ℕ → ((ℕ → ℚ) × ℕ × ℚ × ℕ)
  | 0, j, cost, buf, pp => (buf, pp, cost, j)
  | fuel + 1, j, cost, buf, pp =>
    let c := cost + dc 0 j
    let buf2 := Function.update buf j c
    if (c : WithTop ℚ) ≤ ub then line0go dc ub fuel (j + 1) c buf2 (j + 1)
    else (buf2, pp, c, j)

/-! ### The tightened upper bound `initBlock` (msm.hpp lines 61-75)

The C code computes `nextafter(cutoff, PINF-la)`.  IEEE-754 gives `+∞ - la = +∞` for
every finite `la`, so the second (direction) argument of `nextafter` is `+∞` no matter
what `la` is.  We keep `nextafter` abstract here so that this fact can be stated for
every possible `nextafter` function. -/

/-- IEEE-754 subtraction of a finite double from `+∞`: always `+∞`. -/
def pinfSubFinite (_la : ℚ) : WithTop ℚ := ⊤

/-- The `ub` initBlock of `internal::msm`, with `nextafter` abstract: when
`nbcols ≥ 2`, `la` is the min of the three step costs of the last cell and the code
returns `nextafter(cutoff, PINF - la)`; otherwise `cutoff`. -/
def msmUbBlock (nextafter : WithTop ℚ → WithTop ℚ → WithTop ℚ) (nl nc : ℕ)
    (dl dc d : CostFun) (cutoff : WithTop ℚ) : WithTop ℚ :=
  if 2 ≤ nc then
    let la := min (d (nl - 1) (nc - 1)) (min (dc (nl - 1) (nc - 1)) (dl (nl - 1) (nc - 1)))
    nextafter cutoff (pinfSubFinite la)
  else cutoff

/-- The formula stated by the spec for the tightened bound:
`nextafter(UB, +∞) - cost_of_last_cell_best_step` (when `nbcols ≥ 2`). -/
def msmUbBlockSpec (nextafter : WithTop ℚ → WithTop ℚ → WithTop ℚ) (nl nc : ℕ)
    (dl dc d : CostFun) (cutoff : WithTop ℚ) : WithTop ℚ :=
  if 2 ≤ nc then
    let la := min (d (nl - 1) (nc - 1)) (min (dc (nl - 1) (nc - 1)) (dl (nl - 1) (nc - 1)))
    (nextafter cutoff ⊤).map (fun q => q - la)
  else cutoff

/-- `nextafter` in the exact-arithmetic idealization: the next rational after `x` is
`x` itself (rationals are dense; one ulp collapses to zero). -/
def exactNextafter (x : WithTop ℚ) (_y : WithTop ℚ) : WithTop ℚ := x

/-- Core of `internal::msm`, parameterized over `cutoff` and the (already computed)
tightened bound `ub`.  The incoming scratch buffer `buf0` is immediately
reinitialized to zeros by `buffer_v.assign(nbcols*2, 0)`. -/
def msmIcore (nl nc : ℕ) (dl dc d : CostFun) (cutoff ub : WithTop ℚ)
    (_buf0 : ℕ → ℚ) : WithTop ℚ :=
  let zeros : ℕ → ℚ := fun _ => 0
  let c0 := d 0 0
  if (c0 : WithTop ℚ) ≤ ub then
    let buf1 := Function.update zeros 0 c0
    let r := line0go dc ub (nc - 1) 1 c0 buf1 1
    rowsGo nl nc dl dc d cutoff ub (nl - 1) 1
      { prevb := r.1, oldb := zeros, ns := 0, pp := r.2.1, cost := r.2.2.1, j := r.2.2.2 }
  else ⊤

/-- `internal::msm`: computes the tightened `ub` from `cutoff` via the initBlock and
runs the core.  In the exact model `nextafter` is the identity, so `ub = cutoff`. -/
def msmInternal (nl nc : ℕ) (dl dc d : CostFun) (cutoff : WithTop ℚ)
    (buf0 : ℕ → ℚ) : WithTop ℚ :=
  msmIcore nl nc dl dc d cutoff (msmUbBlock exactNextafter nl nc dl dc d cutoff) buf0

/-- The upper-bound argument of the public `msm` wrapper: `+∞` (pruning with the
diagonal heuristic), `NaN` (full computation) or a finite value. -/
inductive UbArg where
  | pinf : UbArg
  | qnan : UbArg
  | val : ℚ → UbArg

/-- Left-fold sum `f a + f (a+1) + ... + f (a+k-1)`, in the accumulation order of the
C loops. -/
def sumFrom (f : ℕ → ℚ) (a : ℕ) : ℕ → ℚ
  | 0 => 0
  | k + 1 => sumFrom f a k + f (a + k)

/-- The diagonal/L-shaped walk used as the initial cutoff when the caller passes `+∞`
(msm.hpp lines 235-247). -/
def diagWalk (nl nc : ℕ) (dl dc d : CostFun) : ℚ :=
  let m := min nl nc
  let s := sumFrom (fun i => d i i) 0 m
  if nl < nc then s + sumFrom (fun j => dc (nl - 1) j) nl (nc - nl)
  else if nc < nl then s + sumFrom (fun i => dl i (nc - 1)) nc (nl - nc)
  else s

/-- The public `msm` wrapper (msm.hpp lines 220-252): length checks, cutoff
computation from the `ub` argument, then `internal::msm`. -/
def msmTop (nl nc : ℕ) (dl dc d : CostFun) (uba : UbArg) (buf0 : ℕ → ℚ) : WithTop ℚ :=
  if nl = 0 ∧ nc = 0 then 0
  else if nl = 0 ∨ nc = 0 then ⊤
  else
    let cutoff : WithTop ℚ :=
      match uba with
      | UbArg.pinf => (diagWalk nl nc dl dc d : ℚ)
      | UbArg.qnan => ⊤
      | UbArg.val q => (q : ℚ)
    msmInternal nl nc dl dc d cutoff buf0

/-- The buffer-less helper (msm.hpp lines 255-265): calls `msm` with a fresh vector,
whose contents after `assign` are all zeros. -/
def msmTopNoBuf (nl nc : ℕ) (dl dc d : CostFun) (uba : UbArg) : WithTop ℚ :=
  msmTop nl nc dl dc d uba (fun _ => 0)

/-! ### Univariate instantiation (msm.hpp lines 289-357) -/

/-- Series element access; series indices are always in range at call sites. -/
def listAt (s : List ℚ) (i : ℕ) : ℚ := s.getD i 0

/-- Modelled from the spec: `ade(e)(A,i,B,j) = |A[i]-B[j]|^e` with exponent `e = 1`
(`ad1` lives in cost_function.hpp, which is not part of the sources). -/
def ad1 (lines cols : List ℚ) : CostFun := fun i j => |listAt lines i - listAt cols j|

/-- `univariate::_msm_cost_ad1` (msm.hpp lines 302-309): cost of a Split/Merge step. -/
def msmCostAd1 (X : List ℚ) (xnew xi : ℕ) (Y : List ℚ) (yj : ℕ) (c : ℚ) : ℚ :=
  let vnew := listAt X xnew
  let vi := listAt X xi
  let vj := listAt Y yj
  if (vi ≤ vnew ∧ vnew ≤ vj) ∨ (vj ≤ vnew ∧ vnew ≤ vi) then c
  else c + min |vnew - vi| |vnew - vj|

/-- `univariate::msm_lines_ad1`. -/
def msmLinesAd1 (lines cols : List ℚ) (c : ℚ) : CostFun :=
  fun i j => msmCostAd1 lines i (i - 1) cols j c

/-- `univariate::msm_cols_ad1`. -/
def msmColsAd1 (lines cols : List ℚ) (c : ℚ) : CostFun :=
  fun i j => msmCostAd1 cols j (j - 1) lines i c

/-- `univariate::msm` on vectors with the `ad1` cost family. -/
def msmUni (lines cols : List ℚ) (c : ℚ) (uba : UbArg) : WithTop ℚ :=
  msmTop lines.length cols.length (msmLinesAd1 lines cols c) (msmColsAd1 lines cols c)
    (ad1 lines cols) uba (fun _ => 0)

/-- The naive DP value for the univariate `ad1` instantiation. -/
def naiveMsmUni (lines cols : List ℚ) (c : ℚ) : ℚ :=
  naiveMsm (msmLinesAd1 lines cols c) (msmColsAd1 lines cols c) (ad1 lines cols)
    (lines.length - 1) (cols.length - 1)

/-! ### Proof infrastructure: pruning relations -/

/-- `x` is strictly above the pruning bound. -/
def above (ub : WithTop ℚ) (x : ℚ) : Prop := ub < (x : WithTop ℚ)

/-- The value `v` computed for a cell over-approximates the naive value `m`, exactly
when `m` is under the bound. -/
def rel (ub : WithTop ℚ) (v m : ℚ) : Prop := m ≤ v ∧ ((m : WithTop ℚ) ≤ ub → v = m)

theorem above_iff_not_le {ub : WithTop ℚ} {x : ℚ} :
    above ub x ↔ ¬((x : WithTop ℚ) ≤ ub) := by
  unfold above; exact lt_iff_not_le

theorem rel_self {ub : WithTop ℚ} {m : ℚ} : rel ub m m := ⟨le_refl m, fun _ => rfl⟩

theorem rel_add {ub : WithTop ℚ} {v m w : ℚ} (h : rel ub v m) (hw : 0 ≤ w) :
    rel ub (v + w) (m + w) := by
  refine ⟨add_le_add_right h.1 w, fun hle => ?_⟩
  have hm : (m : WithTop ℚ) ≤ ((m + w : ℚ) : WithTop ℚ) := by
    exact_mod_cast le_add_of_nonneg_right hw
  rw [h.2 (le_trans hm hle)]

theorem above_add {ub : WithTop ℚ} {m w : ℚ} (h : above ub m) (hw : 0 ≤ w) :
    above ub (m + w) := by
  refine lt_of_lt_of_le h ?_
  exact_mod_cast le_add_of_nonneg_right hw

theorem above_of_rel {ub : WithTop ℚ} {v m : ℚ} (h : rel ub v m)
    (hv : ¬((v : WithTop ℚ) ≤ ub)) : above ub m := by
  rw [above_iff_not_le]
  intro hm
  exact hv (by rw [h.2 hm]; exact hm)

theorem rel_min_rel {ub : WithTop ℚ} {v1 v2 m1 m2 : ℚ} (h1 : rel ub v1 m1)
    (h2 : rel ub v2 m2) : rel ub (min v1 v2) (min m1 m2) := by
  refine ⟨min_le_min h1.1 h2.1, fun hle => ?_⟩
  rcases le_total m1 m2 with hm | hm
  · rw [min_eq_left hm] at hle ⊢
    rw [h1.2 hle]
    exact le_antisymm (min_le_left _ _) (le_min (le_refl _) (le_trans hm h2.1))
  · rw [min_eq_right hm] at hle ⊢
    rw [h2.2 hle]
    exact le_antisymm (min_le_right _ _) (le_min (le_trans hm h1.1) (le_refl _))

theorem rel_min_drop {ub : WithTop ℚ} {v m1 m2 : ℚ} (h : rel ub v m1)
    (ha : above ub m2) : rel ub v (min m1 m2) := by
  refine ⟨le_trans (min_le_left _ _) h.1, fun hle => ?_⟩
  have h12 : m1 ≤ m2 := by
    by_contra hcon
    push_neg at hcon
    rw [min_eq_right (le_of_lt hcon)] at hle
    exact absurd hle (above_iff_not_le.1 ha)
  rw [min_eq_left h12] at hle ⊢
  exact h.2 hle

theorem above_min {ub : WithTop ℚ} {m1 m2 : ℚ} (h1 : above ub m1) (h2 : above ub m2) :
    above ub (min m1 m2) := by
  unfold above at *
  rw [WithTop.coe_min]
  exact lt_min h1 h2

/-- `rel` for a cell whose three candidate terms are all tracked. -/
theorem rel_cell3 {ub : WithTop ℚ} {a b c A B C : ℚ} (ha : rel ub a A) (hb : rel ub b B)
    (hc : rel ub c C) : rel ub (min a (min b c)) (min A (min B C)) :=
  rel_min_rel ha (rel_min_rel hb hc)

/-- `rel` for a cell where the middle (left-predecessor) term is pruned away. -/
theorem rel_cell_skip_mid {ub : WithTop ℚ} {a c A B C : ℚ} (ha : rel ub a A)
    (hB : above ub B) (hc : rel ub c C) : rel ub (min a c) (min A (min B C)) := by
  have h := rel_min_drop (rel_min_rel ha hc) hB
  have hr : min (min A C) B = min A (min B C) := by
    rw [min_comm B C, ← min_assoc, min_assoc A C B, min_comm C B, ← min_assoc]
  rwa [hr] at h

/-- `rel` for a cell where the last (top-predecessor) term is pruned away. -/
theorem rel_cell_skip_right {ub : WithTop ℚ} {a b A B C : ℚ} (ha : rel ub a A)
    (hb : rel ub b B) (hC : above ub C) : rel ub (min a b) (min A (min B C)) := by
  have h := rel_min_drop (rel_min_rel ha hb) hC
  rwa [min_assoc] at h

/-- `rel` for a cell where only the first (diagonal) term survives. -/
theorem rel_cell_diag {ub : WithTop ℚ} {a A B C : ℚ} (ha : rel ub a A)
    (hB : above ub B) (hC : above ub C) : rel ub a (min A (min B C)) :=
  rel_min_drop ha (above_min hB hC)

/-- `rel` for a cell where only the middle (left-predecessor) term survives. -/
theorem rel_cell_left {ub : WithTop ℚ} {b A B C : ℚ} (hA : above ub A)
    (hb : rel ub b B) (hC : above ub C) : rel ub b (min A (min B C)) := by
  have h := rel_min_drop (rel_min_drop hb hC) hA
  have hr : min (min B C) A = min A (min B C) := min_comm _ _
  rwa [hr] at h

/-- All three candidate terms above the bound: the cell is above the bound. -/
theorem above_cell {ub : WithTop ℚ} {A B C : ℚ} (hA : above ub A) (hB : above ub B)
    (hC : above ub C) : above ub (min A (min B C)) :=
  above_min hA (above_min hB hC)

/-! ### Recurrence equations of the naive DP -/

theorem naiveMsm_zz {dl dc d : CostFun} : naiveMsm dl dc d 0 0 = d 0 0 := rfl

theorem naiveMsm_zs {dl dc d : CostFun} (j : ℕ) :
    naiveMsm dl dc d 0 (j + 1) = naiveMsm dl dc d 0 j + dc 0 (j + 1) := rfl

theorem naiveMsm_sz {dl dc d : CostFun} (i : ℕ) :
    naiveMsm dl dc d (i + 1) 0 = naiveMsm dl dc d i 0 + dl (i + 1) 0 := rfl

theorem naiveMsm_ss {dl dc d : CostFun} (i j : ℕ) :
    naiveMsm dl dc d (i + 1) (j + 1) =
      min (naiveMsm dl dc d i j + d (i + 1) (j + 1))
        (min (naiveMsm dl dc d (i + 1) j + dc (i + 1) (j + 1))
          (naiveMsm dl dc d i (j + 1) + dl (i + 1) (j + 1))) := rfl

/-! ### Global facts about the naive DP -/

section NaiveFacts

variable {dl dc d : CostFun}

/-- Nonnegativity of all three step costs. -/
def NonnegCosts (dl dc d : CostFun) : Prop :=
  (∀ i j, 0 ≤ dl i j) ∧ (∀ i j, 0 ≤ dc i j) ∧ (∀ i j, 0 ≤ d i j)

theorem naiveMsm_nonneg (h : NonnegCosts dl dc d) : ∀ i j, 0 ≤ naiveMsm dl dc d i j := by
  obtain ⟨hdl, hdc, hd⟩ := h
  intro i
  induction i with
  | zero =>
    intro j
    induction j with
    | zero => exact hd 0 0
    | succ j ihj => rw [naiveMsm_zs]; exact add_nonneg ihj (hdc 0 (j + 1))
  | succ i ihi =>
    intro j
    induction j with
    | zero => rw [naiveMsm_sz]; exact add_nonneg (ihi 0) (hdl (i + 1) 0)
    | succ j ihj =>
      rw [naiveMsm_ss]
      refine le_min (add_nonneg (ihi j) (hd _ _)) (le_min ?_ ?_)
      · exact add_nonneg ihj (hdc _ _)
      · exact add_nonneg (ihi (j + 1)) (hdl _ _)

theorem naiveMsm_origin_le (h : NonnegCosts dl dc d) :
    ∀ i j, naiveMsm dl dc d 0 0 ≤ naiveMsm dl dc d i j := by
  obtain ⟨hdl, hdc, hd⟩ := h
  intro i
  induction i with
  | zero =>
    intro j
    induction j with
    | zero => exact le_refl _
    | succ j ihj =>
      rw [naiveMsm_zs]
      exact le_trans ihj (le_add_of_nonneg_right (hdc 0 (j + 1)))
  | succ i ihi =>
    intro j
    induction j with
    | zero =>
      rw [naiveMsm_sz]
      exact le_trans (ihi 0) (le_add_of_nonneg_right (hdl (i + 1) 0))
    | succ j ihj =>
      rw [naiveMsm_ss]
      refine le_min ?_ (le_min ?_ ?_)
      · exact le_trans (ihi j) (le_add_of_nonneg_right (hd _ _))
      · exact le_trans ihj (le_add_of_nonneg_right (hdc _ _))
      · exact le_trans (ihi (j + 1)) (le_add_of_nonneg_right (hdl _ _))

variable {ub : WithTop ℚ}

/-- Columns strictly left of `next_start` stay above the bound on the next line. -/
theorem colPersist (h : NonnegCosts dl dc d) {i N : ℕ}
    (ha : ∀ k, k < N → above ub (naiveMsm dl dc d i k)) :
    ∀ k, k < N → above ub (naiveMsm dl dc d (i + 1) k) := by
  obtain ⟨hdl, hdc, hd⟩ := h
  intro k
  induction k with
  | zero =>
    intro hk
    rw [naiveMsm_sz]
    exact above_add (ha 0 hk) (hdl (i + 1) 0)
  | succ k ihk =>
    intro hk
    rw [naiveMsm_ss]
    refine above_cell ?_ ?_ ?_
    · exact above_add (ha k (Nat.lt_of_succ_lt hk)) (hd _ _)
    · exact above_add (ihk (Nat.lt_of_succ_lt hk)) (hdc _ _)
    · exact above_add (ha (k + 1) hk) (hdl _ _)

/-- Once a whole line is above the bound, every later line is, too. -/
theorem allAboveFuture (h : NonnegCosts dl dc d) {r N : ℕ}
    (ha : ∀ k, k < N → above ub (naiveMsm dl dc d r k)) :
    ∀ s, r ≤ s → ∀ k, k < N → above ub (naiveMsm dl dc d s k) := by
  intro s hs
  induction s, hs using Nat.le_induction with
  | base => exact ha
  | succ s hs ih => exact colPersist h ih

/-- Columns right of a failing front stay above the bound on the current line. -/
theorem rightFill (h : NonnegCosts dl dc d) {r pp t N : ℕ}
    (hprev : ∀ k, pp ≤ k → k < N → above ub (naiveMsm dl dc d r k))
    (hbase : above ub (naiveMsm dl dc d (r + 1) (t - 1)))
    (ht : pp + 1 ≤ t) (h1 : 1 ≤ t) :
    ∀ k, t ≤ k → k < N → above ub (naiveMsm dl dc d (r + 1) k) := by
  obtain ⟨hdl, hdc, hd⟩ := h
  intro k hk
  induction k, hk using Nat.le_induction with
  | base =>
    intro hN
    obtain ⟨u, rfl⟩ : ∃ u, t = u + 1 := ⟨t - 1, (Nat.succ_pred_eq_of_pos h1).symm⟩
    rw [naiveMsm_ss]
    refine above_cell ?_ ?_ ?_
    · exact above_add (hprev u (by omega) (by omega)) (hd _ _)
    · simpa using above_add hbase (hdc _ _)
    · exact above_add (hprev (u + 1) (by omega) (by omega)) (hdl _ _)
  | succ k hk ih =>
    intro hN
    rw [naiveMsm_ss]
    refine above_cell ?_ ?_ ?_
    · exact above_add (hprev k (by omega) (by omega)) (hd _ _)
    · exact above_add (ih (by omega)) (hdc _ _)
    · exact above_add (hprev (k + 1) (by omega) hN) (hdl _ _)

/-- First-line cells only grow to the right. -/
theorem naiveMsm_row0_mono (h : NonnegCosts dl dc d) {a b : ℕ} (hab : a ≤ b) :
    naiveMsm dl dc d 0 a ≤ naiveMsm dl dc d 0 b := by
  induction b, hab using Nat.le_induction with
  | base => exact le_refl _
  | succ b hb ih =>
    rw [naiveMsm_zs]
    exact le_trans ih (le_add_of_nonneg_right (h.2.1 0 (b + 1)))

end NaiveFacts

/-! ### Admissibility of the diagonal-walk heuristic -/

section DiagWalk

variable {dl dc d : CostFun}

theorem naiveMsm_diag_le : ∀ i, naiveMsm dl dc d i i ≤ sumFrom (fun k => d k k) 0 (i + 1) := by
  intro i
  induction i with
  | zero => simp [naiveMsm_zz, sumFrom]
  | succ i ih =>
    have h1 : naiveMsm dl dc d (i + 1) (i + 1) ≤ naiveMsm dl dc d i i + d (i + 1) (i + 1) := by
      rw [naiveMsm_ss]; exact min_le_left _ _
    calc naiveMsm dl dc d (i + 1) (i + 1) ≤ naiveMsm dl dc d i i + d (i + 1) (i + 1) := h1
      _ ≤ sumFrom (fun k => d k k) 0 (i + 1) + d (i + 1) (i + 1) := by
          exact add_le_add_right ih _
      _ = sumFrom (fun k => d k k) 0 (i + 2) := by simp [sumFrom]

theorem naiveMsm_step_right (i j : ℕ) :
    naiveMsm dl dc d i (j + 1) ≤ naiveMsm dl dc d i j + dc i (j + 1) := by
  cases i with
  | zero => rw [naiveMsm_zs]
  | succ i => rw [naiveMsm_ss]; exact le_trans (min_le_right _ _) (min_le_left _ _)

theorem naiveMsm_step_down (i j : ℕ) :
    naiveMsm dl dc d (i + 1) j ≤ naiveMsm dl dc d i j + dl (i + 1) j := by
  cases j with
  | zero => rw [naiveMsm_sz]
  | succ j => rw [naiveMsm_ss]; exact le_trans (min_le_right _ _) (min_le_right _ _)

theorem naiveMsm_le_diagWalk {nl nc : ℕ} (hl : 0 < nl) (hc : 0 < nc) :
    naiveMsm dl dc d (nl - 1) (nc - 1) ≤ diagWalk nl nc dl dc d := by
  rcases lt_trichotomy nl nc with hlt | heq | hgt
  · -- fewer lines than columns: complete the last line
    have hkey : ∀ k, naiveMsm dl dc d (nl - 1) (nl - 1 + k) ≤
        sumFrom (fun i => d i i) 0 nl + sumFrom (fun j => dc (nl - 1) j) nl k := by
      intro k
      induction k with
      | zero =>
        have h0 := @naiveMsm_diag_le dl dc d (nl - 1)
        have he : nl - 1 + 1 = nl := by omega
        rw [he] at h0
        simpa [sumFrom] using h0
      | succ k ih =>
        have hstep := @naiveMsm_step_right dl dc d (nl - 1) (nl - 1 + k)
        calc naiveMsm dl dc d (nl - 1) (nl - 1 + (k + 1))
            = naiveMsm dl dc d (nl - 1) ((nl - 1 + k) + 1) := by ring_nf
          _ ≤ naiveMsm dl dc d (nl - 1) (nl - 1 + k) + dc (nl - 1) (nl - 1 + k + 1) := hstep
          _ ≤ sumFrom (fun i => d i i) 0 nl + sumFrom (fun j => dc (nl - 1) j) nl k
                + dc (nl - 1) (nl - 1 + k + 1) := by exact add_le_add_right ih _
          _ = sumFrom (fun i => d i i) 0 nl + sumFrom (fun j => dc (nl - 1) j) nl (k + 1) := by
              have : nl - 1 + k + 1 = nl + k := by omega
              rw [this, add_assoc]
              rfl
    have h2 := hkey (nc - nl)
    have hrw : nl - 1 + (nc - nl) = nc - 1 := by omega
    rw [hrw] at h2
    unfold diagWalk
    rw [if_pos hlt]
    have hm : min nl nc = nl := min_eq_left (le_of_lt hlt)
    rw [hm]
    exact h2
  · subst heq
    have h0 := @naiveMsm_diag_le dl dc d (nl - 1)
    have he : nl - 1 + 1 = nl := by omega
    rw [he] at h0
    unfold diagWalk
    rw [if_neg (lt_irrefl nl), if_neg (lt_irrefl nl), min_self]
    exact h0
  · -- fewer columns than lines: complete the last column
    have hkey : ∀ k, naiveMsm dl dc d (nc - 1 + k) (nc - 1) ≤
        sumFrom (fun i => d i i) 0 nc + sumFrom (fun i => dl i (nc - 1)) nc k := by
      intro k
      induction k with
      | zero =>
        have h0 := @naiveMsm_diag_le dl dc d (nc - 1)
        have he : nc - 1 + 1 = nc := by omega
        rw [he] at h0
        simpa [sumFrom] using h0
      | succ k ih =>
        have hprev : nc - 1 + (k + 1) = (nc - 1 + k) + 1 := by omega
        rw [hprev]
        have hstep := @naiveMsm_step_down dl dc d (nc - 1 + k) (nc - 1)
        calc naiveMsm dl dc d ((nc - 1 + k) + 1) (nc - 1)
            ≤ naiveMsm dl dc d (nc - 1 + k) (nc - 1) + dl (nc - 1 + k + 1) (nc - 1) := hstep
          _ ≤ sumFrom (fun i => d i i) 0 nc + sumFrom (fun i => dl i (nc - 1)) nc k
                + dl (nc - 1 + k + 1) (nc - 1) := by exact add_le_add_right ih _
          _ = sumFrom (fun i => d i i) 0 nc + sumFrom (fun i => dl i (nc - 1)) nc (k + 1) := by
              have : nc - 1 + k + 1 = nc + k := by omega
              rw [this, add_assoc]
              rfl
    have h2 := hkey (nl - nc)
    have hrw : nc - 1 + (nl - nc) = nl - 1 := by omega
    rw [hrw] at h2
    unfold diagWalk
    rw [if_neg (by omega : ¬nl < nc), if_pos hgt]
    have hm : min nl nc = nc := min_eq_right (le_of_lt hgt)
    rw [hm]
    exact h2

end DiagWalk

/-- `rel` for a cell where only the last (top-predecessor) term survives. -/
theorem rel_cell_top {ub : WithTop ℚ} {c A B C : ℚ} (hA : above ub A) (hB : above ub B)
    (hc : rel ub c C) : rel ub c (min A (min B C)) := by
  have h := rel_min_drop (rel_min_drop hc hB) hA
  have hr : min (min C B) A = min A (min B C) := by
    rw [min_comm C B, min_comm _ A]
  rwa [hr] at h

/-! ### The simulation invariants -/

section Invariants

variable (nc : ℕ) (dl dc d : CostFun) (ub : WithTop ℚ)

/-- What the kernel knows about the previous line `r` when it starts the next one:
`next_start < prev_pp ≤ nc`; buffered cells in `[next_start, prev_pp)` over-approximate
the naive line (exactly under the bound); all other cells of line `r` are above the
bound. -/
structure PrevInv (r : ℕ) (prevb : ℕ → ℚ) (ns pp : ℕ) : Prop where
  h1 : ns < pp
  h2 : pp ≤ nc
  hrel : ∀ k, ns ≤ k → k < pp → rel ub (prevb k) (naiveMsm dl dc d r k)
  hdead : ∀ k, k < ns → above ub (naiveMsm dl dc d r k)
  hhigh : ∀ k, pp ≤ k → k < nc → above ub (naiveMsm dl dc d r k)

/-- Invariant between the stages while processing line `i` (whose `next_start` was
`ns0` on entry). -/
structure MidInv (i ns0 : ℕ) (m : Mid) : Prop where
  hns0 : ns0 ≤ m.ns
  hj1 : 1 ≤ m.j
  hnsj : m.ns ≤ m.j
  hcppj : m.cpp ≤ m.j
  hjnc : m.j ≤ nc
  hsucc : m.ns < m.j → m.ns < m.cpp
  hdead : ∀ k, k < m.ns → above ub (naiveMsm dl dc d i k)
  hbuf : ∀ k, m.ns ≤ k → k < m.j → rel ub (m.buf k) (naiveMsm dl dc d i k)
  hfail : ∀ k, m.cpp ≤ k → k < m.j → above ub (naiveMsm dl dc d i k)
  hcost : m.ns < m.j → rel ub m.cost (naiveMsm dl dc d i (m.j - 1))
  hcostAdv : m.ns = m.j → ub < (m.cost : WithTop ℚ)

/-- Invariant at the end of each iteration of the main loop (state `st` holds line
`r` in `prevb`). -/
structure RowInv (r : ℕ) (st : St) : Prop where
  prev : PrevInv nc dl dc d ub r st.prevb st.ns st.pp
  htail1 : st.j = nc → rel ub st.cost (naiveMsm dl dc d r (nc - 1))
  htail2 : st.j ≠ nc → above ub (naiveMsm dl dc d r (nc - 1))

end Invariants

/-! ### Simulation of the stages against the naive DP -/

section StageProofs

variable {nc : ℕ} {dl dc d : CostFun} {ub : WithTop ℚ} {r ns0 pp : ℕ} {prevb : ℕ → ℚ}

theorem stage1_spec (hN : NonnegCosts dl dc d)
    (hp : PrevInv nc dl dc d ub r prevb ns0 pp) :
    ∀ fuel (m : Mid), MidInv nc dl dc d ub (r + 1) ns0 m →
      fuel + m.j = pp → ns0 < m.j →
      MidInv nc dl dc d ub (r + 1) ns0 (stage1 dl d ub (r + 1) prevb fuel m)
      ∧ (stage1 dl d ub (r + 1) prevb fuel m).j ≤ pp
      ∧ ns0 < (stage1 dl d ub (r + 1) prevb fuel m).j
      ∧ ((stage1 dl d ub (r + 1) prevb fuel m).j = (stage1 dl d ub (r + 1) prevb fuel m).ns →
          (stage1 dl d ub (r + 1) prevb fuel m).j = pp) := by
  intro fuel
  induction fuel with
  | zero =>
    intro m hm hfj hns0j
    simp only [stage1]
    exact ⟨hm, by omega, hns0j, fun _ => by omega⟩
  | succ fuel ih =>
    intro m hm hfj hns0j
    have h2 := hp.h2
    have hnsjm := hm.hnsj
    have hcppjm := hm.hcppj
    have hns0m := hm.hns0
    by_cases hjn : m.j = m.ns
    · -- active: compute the cell at j = next_start
      obtain ⟨k, hk⟩ : ∃ k, m.j = k + 1 := ⟨m.j - 1, by have := hm.hj1; omega⟩
      have hjpp : m.j < pp := by omega
      have hdiag : rel ub (prevb k) (naiveMsm dl dc d r k) :=
        hp.hrel k (by omega) (by omega)
      have htop : rel ub (prevb m.j) (naiveMsm dl dc d r m.j) :=
        hp.hrel m.j (by omega) hjpp
      have hleft : above ub (naiveMsm dl dc d (r + 1) k) := hm.hdead k (by omega)
      have hcell : rel ub (min (prevb (m.j - 1) + d (r + 1) m.j)
          (prevb m.j + dl (r + 1) m.j)) (naiveMsm dl dc d (r + 1) m.j) := by
        rw [hk, Nat.add_sub_cancel, naiveMsm_ss]
        rw [hk] at htop
        exact rel_cell_skip_mid (rel_add hdiag (hN.2.2 _ _))
          (above_add hleft (hN.2.1 _ _)) (rel_add htop (hN.1 _ _))
      simp only [stage1, if_pos hjn]
      by_cases hcb : ((min (prevb (m.j - 1) + d (r + 1) m.j)
          (prevb m.j + dl (r + 1) m.j) : ℚ) : WithTop ℚ) ≤ ub
      · -- the cell passes: record curr_pp = j+1 and exit
        rw [if_pos hcb]
        refine ⟨⟨?_, ?_, ?_, ?_, ?_, ?_, ?_, ?_, ?_, ?_, ?_⟩, ?_, ?_, ?_⟩
        · show ns0 ≤ m.ns; exact hns0m
        · show 1 ≤ m.j + 1; omega
        · show m.ns ≤ m.j + 1; omega
        · show m.j + 1 ≤ m.j + 1; omega
        · show m.j + 1 ≤ nc; omega
        · intro _; show m.ns < m.j + 1; omega
        · exact hm.hdead
        · intro k2 hk2a hk2b
          replace hk2a : m.ns ≤ k2 := hk2a
          replace hk2b : k2 < m.j + 1 := hk2b
          show rel ub (Function.update m.buf m.j _ k2) _
          rcases Nat.lt_or_ge k2 m.j with hlt | hge
          · rw [Function.update_noteq (by omega)]
            exact hm.hbuf k2 hk2a hlt
          · have hq : k2 = m.j := by omega
            subst hq
            rw [Function.update_same]
            exact hcell
        · intro k2 hk2a hk2b
          replace hk2a : m.j + 1 ≤ k2 := hk2a
          replace hk2b : k2 < m.j + 1 := hk2b
          exact absurd (lt_of_le_of_lt hk2a hk2b) (by omega)
        · intro _
          show rel ub _ (naiveMsm dl dc d (r + 1) (m.j + 1 - 1))
          rw [Nat.add_sub_cancel]
          exact hcell
        · intro hcon
          replace hcon : m.ns = m.j + 1 := hcon
          exact absurd hcon (by omega)
        · show m.j + 1 ≤ pp; omega
        · show ns0 < m.j + 1; omega
        · intro hcon
          replace hcon : m.j + 1 = m.ns := hcon
          exact absurd hcon (by omega)
      · -- the cell fails: advance next_start and continue
        rw [if_neg hcb]
        have habove : above ub (naiveMsm dl dc d (r + 1) m.j) := above_of_rel hcell hcb
        have hub : ub < ((min (prevb (m.j - 1) + d (r + 1) m.j)
            (prevb m.j + dl (r + 1) m.j) : ℚ) : WithTop ℚ) := not_le.1 hcb
        refine ih ⟨m.j + 1, m.ns + 1, m.cpp, _, _⟩ ⟨?_, ?_, ?_, ?_, ?_, ?_, ?_, ?_, ?_, ?_, ?_⟩
          (by show fuel + (m.j + 1) = pp; omega) (by show ns0 < m.j + 1; omega)
        · show ns0 ≤ m.ns + 1; omega
        · show 1 ≤ m.j + 1; omega
        · show m.ns + 1 ≤ m.j + 1; omega
        · show m.cpp ≤ m.j + 1; omega
        · show m.j + 1 ≤ nc; omega
        · intro hcon
          replace hcon : m.ns + 1 < m.j + 1 := hcon
          exact absurd hcon (by omega)
        · intro k2 hk2
          replace hk2 : k2 < m.ns + 1 := hk2
          show above ub (naiveMsm dl dc d (r + 1) k2)
          rcases Nat.lt_or_ge k2 m.ns with hlt | hge
          · exact hm.hdead k2 hlt
          · have hq : k2 = m.j := by omega
            subst hq
            exact habove
        · intro k2 hk2a hk2b
          replace hk2a : m.ns + 1 ≤ k2 := hk2a
          replace hk2b : k2 < m.j + 1 := hk2b
          exact absurd (lt_of_le_of_lt hk2a hk2b) (by omega)
        · intro k2 hk2a hk2b
          replace hk2a : m.cpp ≤ k2 := hk2a
          replace hk2b : k2 < m.j + 1 := hk2b
          show above ub (naiveMsm dl dc d (r + 1) k2)
          rcases Nat.lt_or_ge k2 m.j with hlt | hge
          · exact hm.hfail k2 hk2a hlt
          · have hq : k2 = m.j := by omega
            subst hq
            exact habove
        · intro hcon
          replace hcon : m.ns + 1 < m.j + 1 := hcon
          exact absurd hcon (by omega)
        · intro _
          exact hub
    · -- j has moved past next_start: stage 1 exits immediately
      simp only [stage1, if_neg hjn]
      exact ⟨hm, by omega, hns0j, fun h => absurd h hjn⟩

theorem stage2_spec (hN : NonnegCosts dl dc d)
    (hp : PrevInv nc dl dc d ub r prevb ns0 pp) :
    ∀ fuel (m : Mid), MidInv nc dl dc d ub (r + 1) ns0 m →
      fuel + m.j = pp → ns0 < m.j → (m.ns < m.j ∨ m.j = pp) →
      MidInv nc dl dc d ub (r + 1) ns0 (stage2 dl dc d ub (r + 1) prevb fuel m)
      ∧ (stage2 dl dc d ub (r + 1) prevb fuel m).j = pp
      ∧ ns0 < (stage2 dl dc d ub (r + 1) prevb fuel m).j := by
  intro fuel
  induction fuel with
  | zero =>
    intro m hm hfj hns0j _
    simp only [stage2]
    exact ⟨hm, by omega, hns0j⟩
  | succ fuel ih =>
    intro m hm hfj hns0j hentry
    have h2 := hp.h2
    have hnsjm := hm.hnsj
    have hcppjm := hm.hcppj
    have hns0m := hm.hns0
    have hjpp : m.j < pp := by omega
    have hnsj : m.ns < m.j := by
      rcases hentry with h | h
      · exact h
      · omega
    obtain ⟨k, hk⟩ : ∃ k, m.j = k + 1 := ⟨m.j - 1, by have := hm.hj1; omega⟩
    have hdiag : rel ub (prevb k) (naiveMsm dl dc d r k) :=
      hp.hrel k (by omega) (by omega)
    have htop : rel ub (prevb m.j) (naiveMsm dl dc d r m.j) :=
      hp.hrel m.j (by omega) hjpp
    have hleft : rel ub m.cost (naiveMsm dl dc d (r + 1) (m.j - 1)) := hm.hcost hnsj
    have hcell : rel ub (min (prevb (m.j - 1) + d (r + 1) m.j)
        (min (m.cost + dc (r + 1) m.j) (prevb m.j + dl (r + 1) m.j)))
        (naiveMsm dl dc d (r + 1) m.j) := by
      rw [hk, Nat.add_sub_cancel, naiveMsm_ss]
      rw [hk] at htop
      rw [hk, Nat.add_sub_cancel] at hleft
      exact rel_cell3 (rel_add hdiag (hN.2.2 _ _)) (rel_add hleft (hN.2.1 _ _))
        (rel_add htop (hN.1 _ _))
    simp only [stage2]
    by_cases hcb : ((min (prevb (m.j - 1) + d (r + 1) m.j)
        (min (m.cost + dc (r + 1) m.j) (prevb m.j + dl (r + 1) m.j)) : ℚ) : WithTop ℚ) ≤ ub
    · rw [if_pos hcb]
      refine ih ⟨m.j + 1, m.ns, m.j + 1, _, _⟩ ⟨?_, ?_, ?_, ?_, ?_, ?_, ?_, ?_, ?_, ?_, ?_⟩
        (by show fuel + (m.j + 1) = pp; omega) (by show ns0 < m.j + 1; omega)
        (by left; show m.ns < m.j + 1; omega)
      · show ns0 ≤ m.ns; exact hns0m
      · show 1 ≤ m.j + 1; omega
      · show m.ns ≤ m.j + 1; omega
      · show m.j + 1 ≤ m.j + 1; omega
      · show m.j + 1 ≤ nc; omega
      · intro _; show m.ns < m.j + 1; omega
      · exact hm.hdead
      · intro k2 hk2a hk2b
        replace hk2a : m.ns ≤ k2 := hk2a
        replace hk2b : k2 < m.j + 1 := hk2b
        show rel ub (Function.update m.buf m.j _ k2) _
        rcases Nat.lt_or_ge k2 m.j with hlt | hge
        · rw [Function.update_noteq (by omega)]
          exact hm.hbuf k2 hk2a hlt
        · have hq : k2 = m.j := by omega
          subst hq
          rw [Function.update_same]
          exact hcell
      · intro k2 hk2a hk2b
        replace hk2a : m.j + 1 ≤ k2 := hk2a
        replace hk2b : k2 < m.j + 1 := hk2b
        exact absurd (lt_of_le_of_lt hk2a hk2b) (by omega)
      · intro _
        show rel ub _ (naiveMsm dl dc d (r + 1) (m.j + 1 - 1))
        rw [Nat.add_sub_cancel]
        exact hcell
      · intro hcon
        replace hcon : m.ns = m.j + 1 := hcon
        exact absurd hcon (by omega)
    · rw [if_neg hcb]
      have habove : above ub (naiveMsm dl dc d (r + 1) m.j) := above_of_rel hcell hcb
      refine ih ⟨m.j + 1, m.ns, m.cpp, _, _⟩ ⟨?_, ?_, ?_, ?_, ?_, ?_, ?_, ?_, ?_, ?_, ?_⟩
        (by show fuel + (m.j + 1) = pp; omega) (by show ns0 < m.j + 1; omega)
        (by left; show m.ns < m.j + 1; omega)
      · show ns0 ≤ m.ns; exact hns0m
      · show 1 ≤ m.j + 1; omega
      · show m.ns ≤ m.j + 1; omega
      · show m.cpp ≤ m.j + 1; omega
      · show m.j + 1 ≤ nc; omega
      · intro _
        show m.ns < m.cpp
        exact hm.hsucc hnsj
      · exact hm.hdead
      · intro k2 hk2a hk2b
        replace hk2a : m.ns ≤ k2 := hk2a
        replace hk2b : k2 < m.j + 1 := hk2b
        show rel ub (Function.update m.buf m.j _ k2) _
        rcases Nat.lt_or_ge k2 m.j with hlt | hge
        · rw [Function.update_noteq (by omega)]
          exact hm.hbuf k2 hk2a hlt
        · have hq : k2 = m.j := by omega
          subst hq
          rw [Function.update_same]
          exact hcell
      · intro k2 hk2a hk2b
        replace hk2a : m.cpp ≤ k2 := hk2a
        replace hk2b : k2 < m.j + 1 := hk2b
        show above ub (naiveMsm dl dc d (r + 1) k2)
        rcases Nat.lt_or_ge k2 m.j with hlt | hge
        · exact hm.hfail k2 hk2a hlt
        · have hq : k2 = m.j := by omega
          subst hq
          exact habove
      · intro _
        show rel ub _ (naiveMsm dl dc d (r + 1) (m.j + 1 - 1))
        rw [Nat.add_sub_cancel]
        exact hcell
      · intro hcon
        replace hcon : m.ns = m.j + 1 := hcon
        exact absurd hcon (by omega)

theorem stage3_spec (nl : ℕ) (hN : NonnegCosts dl dc d) (hcu : cutoff ≤ ub)
    (hp : PrevInv nc dl dc d ub r prevb ns0 pp)
    (m : Mid) (hm : MidInv nc dl dc d ub (r + 1) ns0 m) (hjp : m.j = pp)
    (hns0j : ns0 < m.j) :
    (stage3 nl nc dc d cutoff ub (r + 1) prevb m = Except.error ⊤
       ∧ ∀ k, k < nc → above ub (naiveMsm dl dc d (r + 1) k))
    ∨ (∃ m3, stage3 nl nc dc d cutoff ub (r + 1) prevb m = Except.ok m3
       ∧ MidInv nc dl dc d ub (r + 1) ns0 m3 ∧ m3.ns < m3.j ∧ m3.j ≤ nc
       ∧ (m3.j = pp + 1 ∨ m3.j = nc)) := by
  have h1 := hp.h1
  have h2 := hp.h2
  have hnsjm := hm.hnsj
  have hcppjm := hm.hcppj
  have hns0m := hm.hns0
  have hjncm := hm.hjnc
  by_cases hlt : m.j < nc
  · obtain ⟨k, hk⟩ : ∃ k, m.j = k + 1 := ⟨m.j - 1, by have := hm.hj1; omega⟩
    have hdiag : rel ub (prevb k) (naiveMsm dl dc d r k) :=
      hp.hrel k (by omega) (by omega)
    by_cases hjn : m.j = m.ns
    · -- case 1: still advancing next_start; diagonal only
      have hleftA : above ub (naiveMsm dl dc d (r + 1) k) := hm.hdead k (by omega)
      have htopA : above ub (naiveMsm dl dc d r m.j) := hp.hhigh m.j (by omega) hlt
      have hcell : rel ub (prevb (m.j - 1) + d (r + 1) m.j)
          (naiveMsm dl dc d (r + 1) m.j) := by
        rw [hk, Nat.add_sub_cancel, naiveMsm_ss]
        rw [hk] at htopA
        exact rel_cell_diag (rel_add hdiag (hN.2.2 _ _))
          (above_add hleftA (hN.2.1 _ _)) (above_add htopA (hN.1 _ _))
      simp only [stage3, if_pos hlt, if_pos hjn]
      by_cases hcb : ((prevb (m.j - 1) + d (r + 1) m.j : ℚ) : WithTop ℚ) ≤ ub
      · rw [if_pos hcb]
        right
        refine ⟨_, rfl, ⟨?_, ?_, ?_, ?_, ?_, ?_, ?_, ?_, ?_, ?_, ?_⟩, ?_, ?_, ?_⟩
        · show ns0 ≤ m.ns; exact hns0m
        · show 1 ≤ m.j + 1; omega
        · show m.ns ≤ m.j + 1; omega
        · show m.j + 1 ≤ m.j + 1; omega
        · show m.j + 1 ≤ nc; omega
        · intro _; show m.ns < m.j + 1; omega
        · exact hm.hdead
        · intro k2 hk2a hk2b
          replace hk2a : m.ns ≤ k2 := hk2a
          replace hk2b : k2 < m.j + 1 := hk2b
          show rel ub (Function.update m.buf m.j _ k2) _
          rcases Nat.lt_or_ge k2 m.j with hlt2 | hge
          · rw [Function.update_noteq (by omega)]
            exact hm.hbuf k2 hk2a hlt2
          · have hq : k2 = m.j := by omega
            subst hq
            rw [Function.update_same]
            exact hcell
        · intro k2 hk2a hk2b
          replace hk2a : m.j + 1 ≤ k2 := hk2a
          replace hk2b : k2 < m.j + 1 := hk2b
          exact absurd (lt_of_le_of_lt hk2a hk2b) (by omega)
        · intro _
          show rel ub _ (naiveMsm dl dc d (r + 1) (m.j + 1 - 1))
          rw [Nat.add_sub_cancel]
          exact hcell
        · intro hcon
          replace hcon : m.ns = m.j + 1 := hcon
          exact absurd hcon (by omega)
        · show m.ns < m.j + 1; omega
        · show m.j + 1 ≤ nc; omega
        · left; show m.j + 1 = pp + 1; omega
      · rw [if_neg hcb]
        have habove : above ub (naiveMsm dl dc d (r + 1) m.j) := above_of_rel hcell hcb
        have hnotfin : ¬((r + 1) = nl - 1 ∧ m.j = nc - 1
            ∧ ((prevb (m.j - 1) + d (r + 1) m.j : ℚ) : WithTop ℚ) ≤ cutoff) := by
          rintro ⟨-, -, hle⟩
          exact hcb (le_trans hle hcu)
        rw [if_neg hnotfin]
        left
        refine ⟨rfl, ?_⟩
        intro k2 hk2
        rcases Nat.lt_or_ge k2 m.j with hlt2 | hge
        · exact hm.hdead k2 (by omega)
        · rcases Nat.eq_or_lt_of_le hge with hq | hgt
          · rw [← hq]
            exact habove
          · exact rightFill hN hp.hhigh (by simpa using habove) (by omega) (by omega)
              k2 hgt hk2
    · -- case 2: left and diagonal
      have hnsj : m.ns < m.j := by omega
      have hleft : rel ub m.cost (naiveMsm dl dc d (r + 1) (m.j - 1)) := hm.hcost hnsj
      have htopA : above ub (naiveMsm dl dc d r m.j) := hp.hhigh m.j (by omega) hlt
      have hcell : rel ub (min (prevb (m.j - 1) + d (r + 1) m.j)
          (m.cost + dc (r + 1) m.j)) (naiveMsm dl dc d (r + 1) m.j) := by
        rw [hk, Nat.add_sub_cancel, naiveMsm_ss]
        rw [hk] at htopA
        rw [hk, Nat.add_sub_cancel] at hleft
        exact rel_cell_skip_right (rel_add hdiag (hN.2.2 _ _))
          (rel_add hleft (hN.2.1 _ _)) (above_add htopA (hN.1 _ _))
      simp only [stage3, if_pos hlt, if_neg hjn]
      right
      refine ⟨_, rfl, ⟨?_, ?_, ?_, ?_, ?_, ?_, ?_, ?_, ?_, ?_, ?_⟩, ?_, ?_, ?_⟩
      · show ns0 ≤ m.ns; exact hns0m
      · show 1 ≤ m.j + 1; omega
      · show m.ns ≤ m.j + 1; omega
      · show (if ((min (prevb (m.j - 1) + d (r + 1) m.j)
            (m.cost + dc (r + 1) m.j) : ℚ) : WithTop ℚ) ≤ ub then m.j + 1 else m.cpp)
            ≤ m.j + 1
        split
        · omega
        · omega
      · show m.j + 1 ≤ nc; omega
      · intro _
        show m.ns < (if ((min (prevb (m.j - 1) + d (r + 1) m.j)
            (m.cost + dc (r + 1) m.j) : ℚ) : WithTop ℚ) ≤ ub then m.j + 1 else m.cpp)
        split
        · omega
        · exact hm.hsucc hnsj
      · exact hm.hdead
      · intro k2 hk2a hk2b
        replace hk2a : m.ns ≤ k2 := hk2a
        replace hk2b : k2 < m.j + 1 := hk2b
        show rel ub (Function.update m.buf m.j _ k2) _
        rcases Nat.lt_or_ge k2 m.j with hlt2 | hge
        · rw [Function.update_noteq (by omega)]
          exact hm.hbuf k2 hk2a hlt2
        · have hq : k2 = m.j := by omega
          subst hq
          rw [Function.update_same]
          exact hcell
      · intro k2 hk2a hk2b
        replace hk2b : k2 < m.j + 1 := hk2b
        by_cases hcb : ((min (prevb (m.j - 1) + d (r + 1) m.j)
            (m.cost + dc (r + 1) m.j) : ℚ) : WithTop ℚ) ≤ ub
        · rw [if_pos hcb] at hk2a
          replace hk2a : m.j + 1 ≤ k2 := hk2a
          exact absurd (lt_of_le_of_lt hk2a hk2b) (by omega)
        · rw [if_neg hcb] at hk2a
          replace hk2a : m.cpp ≤ k2 := hk2a
          show above ub (naiveMsm dl dc d (r + 1) k2)
          rcases Nat.lt_or_ge k2 m.j with hlt2 | hge
          · exact hm.hfail k2 hk2a hlt2
          · have hq : k2 = m.j := by omega
            subst hq
            exact above_of_rel hcell hcb
      · intro _
        show rel ub _ (naiveMsm dl dc d (r + 1) (m.j + 1 - 1))
        rw [Nat.add_sub_cancel]
        exact hcell
      · intro hcon
        replace hcon : m.ns = m.j + 1 := hcon
        exact absurd hcon (by omega)
      · show m.ns < m.j + 1; omega
      · show m.j + 1 ≤ nc; omega
      · left; show m.j + 1 = pp + 1; omega
  · -- out of bounds: j = pp = nc
    have hjnc : m.j = nc := by omega
    by_cases hjn : m.j = m.ns
    · have hub : ub < (m.cost : WithTop ℚ) := hm.hcostAdv hjn.symm
      have hcut : cutoff < (m.cost : WithTop ℚ) := lt_of_le_of_lt hcu hub
      simp only [stage3, if_neg hlt, if_pos hjn, if_pos hcut]
      left
      refine ⟨trivial, ?_⟩
      intro k2 hk2
      exact hm.hdead k2 (by omega)
    · simp only [stage3, if_neg hlt, if_neg hjn]
      right
      exact ⟨m, rfl, hm, by omega, by omega, Or.inr hjnc⟩

theorem stage4_spec (hN : NonnegCosts dl dc d)
    (hp : PrevInv nc dl dc d ub r prevb ns0 pp) :
    ∀ fuel (m : Mid), MidInv nc dl dc d ub (r + 1) ns0 m →
      fuel + m.j = nc → m.ns < m.j → (pp + 1 ≤ m.j ∨ m.j = nc) →
      MidInv nc dl dc d ub (r + 1) ns0 (stage4 dc ub (r + 1) fuel m)
      ∧ (stage4 dc ub (r + 1) fuel m).ns < (stage4 dc ub (r + 1) fuel m).j
      ∧ ((stage4 dc ub (r + 1) fuel m).j = nc
          ∨ (stage4 dc ub (r + 1) fuel m).cpp < (stage4 dc ub (r + 1) fuel m).j)
      ∧ (pp + 1 ≤ (stage4 dc ub (r + 1) fuel m).j ∨ (stage4 dc ub (r + 1) fuel m).j = nc) := by
  intro fuel
  induction fuel with
  | zero =>
    intro m hm hfj hnsj hjp
    simp only [stage4]
    exact ⟨hm, hnsj, Or.inl (by omega), hjp⟩
  | succ fuel ih =>
    intro m hm hfj hnsj hjp
    have hnsjm := hm.hnsj
    have hcppjm := hm.hcppj
    have hns0m := hm.hns0
    have hjlt : m.j < nc := by omega
    by_cases hjc : m.j = m.cpp
    · have hppj : pp + 1 ≤ m.j := by
        rcases hjp with h | h
        · exact h
        · omega
      obtain ⟨k, hk⟩ : ∃ k, m.j = k + 1 := ⟨m.j - 1, by have := hm.hj1; omega⟩
      have hleft : rel ub m.cost (naiveMsm dl dc d (r + 1) (m.j - 1)) := hm.hcost hnsj
      have hdiagA : above ub (naiveMsm dl dc d r k) := hp.hhigh k (by omega) (by omega)
      have htopA : above ub (naiveMsm dl dc d r m.j) := hp.hhigh m.j (by omega) hjlt
      have hcell : rel ub (m.cost + dc (r + 1) m.j) (naiveMsm dl dc d (r + 1) m.j) := by
        rw [hk, naiveMsm_ss]
        rw [hk] at htopA
        rw [hk, Nat.add_sub_cancel] at hleft
        exact rel_cell_left (above_add hdiagA (hN.2.2 _ _))
          (rel_add hleft (hN.2.1 _ _)) (above_add htopA (hN.1 _ _))
      simp only [stage4, if_pos hjc]
      by_cases hcb : ((m.cost + dc (r + 1) m.j : ℚ) : WithTop ℚ) ≤ ub
      · rw [if_pos hcb]
        refine ih ⟨m.j + 1, m.ns, m.cpp + 1, _, _⟩ ⟨?_, ?_, ?_, ?_, ?_, ?_, ?_, ?_, ?_, ?_, ?_⟩
          (by show fuel + (m.j + 1) = nc; omega) (by show m.ns < m.j + 1; omega)
          (by left; show pp + 1 ≤ m.j + 1; omega)
        · show ns0 ≤ m.ns; exact hns0m
        · show 1 ≤ m.j + 1; omega
        · show m.ns ≤ m.j + 1; omega
        · show m.cpp + 1 ≤ m.j + 1; omega
        · show m.j + 1 ≤ nc; omega
        · intro _; show m.ns < m.cpp + 1; omega
        · exact hm.hdead
        · intro k2 hk2a hk2b
          replace hk2a : m.ns ≤ k2 := hk2a
          replace hk2b : k2 < m.j + 1 := hk2b
          show rel ub (Function.update m.buf m.j _ k2) _
          rcases Nat.lt_or_ge k2 m.j with hlt2 | hge
          · rw [Function.update_noteq (by omega)]
            exact hm.hbuf k2 hk2a hlt2
          · have hq : k2 = m.j := by omega
            subst hq
            rw [Function.update_same]
            exact hcell
        · intro k2 hk2a hk2b
          replace hk2a : m.cpp + 1 ≤ k2 := hk2a
          replace hk2b : k2 < m.j + 1 := hk2b
          exact absurd (lt_of_le_of_lt (by omega : m.j + 1 ≤ k2 + 1) (by omega : k2 + 1 < m.j + 2))
            (by omega)
        · intro _
          show rel ub _ (naiveMsm dl dc d (r + 1) (m.j + 1 - 1))
          rw [Nat.add_sub_cancel]
          exact hcell
        · intro hcon
          replace hcon : m.ns = m.j + 1 := hcon
          exact absurd hcon (by omega)
      · rw [if_neg hcb]
        have habove : above ub (naiveMsm dl dc d (r + 1) m.j) := above_of_rel hcell hcb
        refine ih ⟨m.j + 1, m.ns, m.cpp, _, _⟩ ⟨?_, ?_, ?_, ?_, ?_, ?_, ?_, ?_, ?_, ?_, ?_⟩
          (by show fuel + (m.j + 1) = nc; omega) (by show m.ns < m.j + 1; omega)
          (by left; show pp + 1 ≤ m.j + 1; omega)
        · show ns0 ≤ m.ns; exact hns0m
        · show 1 ≤ m.j + 1; omega
        · show m.ns ≤ m.j + 1; omega
        · show m.cpp ≤ m.j + 1; omega
        · show m.j + 1 ≤ nc; omega
        · intro _; show m.ns < m.cpp; omega
        · exact hm.hdead
        · intro k2 hk2a hk2b
          replace hk2a : m.ns ≤ k2 := hk2a
          replace hk2b : k2 < m.j + 1 := hk2b
          show rel ub (Function.update m.buf m.j _ k2) _
          rcases Nat.lt_or_ge k2 m.j with hlt2 | hge
          · rw [Function.update_noteq (by omega)]
            exact hm.hbuf k2 hk2a hlt2
          · have hq : k2 = m.j := by omega
            subst hq
            rw [Function.update_same]
            exact hcell
        · intro k2 hk2a hk2b
          replace hk2a : m.cpp ≤ k2 := hk2a
          replace hk2b : k2 < m.j + 1 := hk2b
          show above ub (naiveMsm dl dc d (r + 1) k2)
          rcases Nat.lt_or_ge k2 m.j with hlt2 | hge
          · exact hm.hfail k2 hk2a hlt2
          · have hq : k2 = m.j := by omega
            subst hq
            exact habove
        · intro _
          show rel ub _ (naiveMsm dl dc d (r + 1) (m.j + 1 - 1))
          rw [Nat.add_sub_cancel]
          exact hcell
        · intro hcon
          replace hcon : m.ns = m.j + 1 := hcon
          exact absurd hcon (by omega)
    · simp only [stage4, if_neg hjc]
      exact ⟨hm, hnsj, Or.inr (by omega), hjp⟩

/-- The tail of `rowStep` after stage 0: stages 1-4 and the state rebuild.
`rowStep` is definitionally `rowTail` applied to the stage-0 result. -/
def rowTail (nl nc : ℕ) (dl dc d : CostFun) (cutoff ub : WithTop ℚ) (i : ℕ)
    (prevb : ℕ → ℚ) (pp : ℕ) (m0 : Mid) : Except (WithTop ℚ) St :=
  let m1 := stage1 dl d ub i prevb (pp - m0.j) m0
  let m2 := stage2 dl dc d ub i prevb (pp - m1.j) m1
  match stage3 nl nc dc d cutoff ub i prevb m2 with
  | Except.error r => Except.error r
  | Except.ok m3 =>
    let m4 := stage4 dc ub i (nc - m3.j) m3
    Except.ok { prevb := m4.buf, oldb := prevb, ns := m4.ns, pp := m4.cpp,
                cost := m4.cost, j := m4.j }

theorem rowStep_eq_rowTail {nl nc : ℕ} {dl dc d : CostFun} {cutoff ub : WithTop ℚ}
    {i : ℕ} {st : St} :
    rowStep nl nc dl dc d cutoff ub i st =
      rowTail nl nc dl dc d cutoff ub i st.prevb st.pp
        (if ((st.prevb st.ns + dl i st.ns : ℚ) : WithTop ℚ) ≤ ub then
          ⟨st.ns + 1, st.ns, st.ns + 1,
            Function.update st.oldb st.ns (st.prevb st.ns + dl i st.ns),
            st.prevb st.ns + dl i st.ns⟩
        else
          ⟨st.ns + 1, st.ns + 1, st.ns,
            Function.update st.oldb st.ns (st.prevb st.ns + dl i st.ns),
            st.prevb st.ns + dl i st.ns⟩) := by
  by_cases hcb : ((st.prevb st.ns + dl i st.ns : ℚ) : WithTop ℚ) ≤ ub
  · simp only [rowStep, rowTail, if_pos hcb]
  · simp only [rowStep, rowTail, if_neg hcb]

theorem rowTail_spec {nl : ℕ} (hN : NonnegCosts dl dc d) (hcu : cutoff ≤ ub)
    (hp : PrevInv nc dl dc d ub r prevb ns0 pp)
    (m0 : Mid) (hm0 : MidInv nc dl dc d ub (r + 1) ns0 m0) (hj0 : m0.j = ns0 + 1) :
    (rowTail nl nc dl dc d cutoff ub (r + 1) prevb pp m0 = Except.error ⊤
      ∧ ∀ k, k < nc → above ub (naiveMsm dl dc d (r + 1) k))
    ∨ (∃ st2, rowTail nl nc dl dc d cutoff ub (r + 1) prevb pp m0 = Except.ok st2
      ∧ RowInv nc dl dc d ub (r + 1) st2) := by
  have h1 := hp.h1
  have h2 := hp.h2
  obtain ⟨hm1, hm1pp, hm1ns0, hm1exit⟩ :=
    stage1_spec hN hp (pp - m0.j) m0 hm0 (by omega) (by omega)
  obtain ⟨hm2, hm2pp, hm2ns0⟩ :=
    stage2_spec hN hp (pp - (stage1 dl d ub (r + 1) prevb (pp - m0.j) m0).j)
      (stage1 dl d ub (r + 1) prevb (pp - m0.j) m0) hm1 (by omega) hm1ns0
      (by
        by_cases hq : (stage1 dl d ub (r + 1) prevb (pp - m0.j) m0).j
            = (stage1 dl d ub (r + 1) prevb (pp - m0.j) m0).ns
        · exact Or.inr (hm1exit hq)
        · exact Or.inl (lt_of_le_of_ne hm1.hnsj (fun hcon => hq hcon.symm)))
  rcases stage3_spec nl hN hcu hp _ hm2 hm2pp hm2ns0 with
    ⟨herr, hdeadrow⟩ | ⟨m3, hok, hm3, hm3nsj, hm3nc, hm3j⟩
  · left
    constructor
    · simp only [rowTail]
      rw [herr]
    · exact hdeadrow
  · obtain ⟨hm4, hm4nsj, hm4exit, hm4jp⟩ :=
      stage4_spec hN hp (nc - m3.j) m3 hm3 (by omega) hm3nsj
        (by
          rcases hm3j with hq | hq
          · exact Or.inl (by omega)
          · exact Or.inr hq)
    right
    refine ⟨_, by simp only [rowTail]; rw [hok], ?_⟩
    set m4 := stage4 dc ub (r + 1) (nc - m3.j) m3 with hm4def
    have hcppj4 := hm4.hcppj
    have hjnc4 := hm4.hjnc
    have hj14 := hm4.hj1
    refine ⟨⟨?_, ?_, ?_, ?_, ?_⟩, ?_, ?_⟩
    · show m4.ns < m4.cpp
      exact hm4.hsucc hm4nsj
    · show m4.cpp ≤ nc
      omega
    · intro k hk1 hk2
      replace hk1 : m4.ns ≤ k := hk1
      replace hk2 : k < m4.cpp := hk2
      exact hm4.hbuf k hk1 (by omega)
    · exact hm4.hdead
    · intro k hk1 hk2
      replace hk1 : m4.cpp ≤ k := hk1
      replace hk2 : k < nc := hk2
      show above ub (naiveMsm dl dc d (r + 1) k)
      rcases Nat.lt_or_ge k m4.j with hlt | hge
      · exact hm4.hfail k hk1 hlt
      · have hjlt : m4.j < nc := by omega
        have hcpplt : m4.cpp < m4.j := by
          rcases hm4exit with hq | hq
          · omega
          · exact hq
        have hppj : pp + 1 ≤ m4.j := by
          rcases hm4jp with hq | hq
          · exact hq
          · omega
        have hbase : above ub (naiveMsm dl dc d (r + 1) (m4.j - 1)) :=
          hm4.hfail (m4.j - 1) (by omega) (by omega)
        exact rightFill hN hp.hhigh hbase (by omega) (by omega) k hge hk2
    · intro hjq
      replace hjq : m4.j = nc := hjq
      have hc := hm4.hcost hm4nsj
      rw [hjq] at hc
      exact hc
    · intro hjq
      replace hjq : m4.j ≠ nc := hjq
      have hjlt : m4.j < nc := by omega
      show above ub (naiveMsm dl dc d (r + 1) (nc - 1))
      rcases Nat.lt_or_ge (nc - 1) m4.j with hlt | hge
      · have hq : nc - 1 = m4.j := by omega
        omega
      · have hcpplt : m4.cpp < m4.j := by
          rcases hm4exit with hq | hq
          · omega
          · exact hq
        have hppj : pp + 1 ≤ m4.j := by
          rcases hm4jp with hq | hq
          · exact hq
          · omega
        have hbase : above ub (naiveMsm dl dc d (r + 1) (m4.j - 1)) :=
          hm4.hfail (m4.j - 1) (by omega) (by omega)
        exact rightFill hN hp.hhigh hbase (by omega) (by omega) (nc - 1) hge (by omega)

theorem above_mono {x y : ℚ} {ub : WithTop ℚ} (h : above ub x) (hxy : x ≤ y) :
    above ub y := lt_of_lt_of_le h (by exact_mod_cast hxy)

theorem rel_of_eq {ub : WithTop ℚ} {v m : ℚ} (h : v = m) : rel ub v m :=
  ⟨le_of_eq h.symm, fun _ => h⟩

theorem rowStep_spec {nl : ℕ} (hN : NonnegCosts dl dc d) (hcu : cutoff ≤ ub)
    {st : St} (hInv : RowInv nc dl dc d ub r st) :
    (rowStep nl nc dl dc d cutoff ub (r + 1) st = Except.error ⊤
      ∧ ∀ k, k < nc → above ub (naiveMsm dl dc d (r + 1) k))
    ∨ (∃ st2, rowStep nl nc dl dc d cutoff ub (r + 1) st = Except.ok st2
      ∧ RowInv nc dl dc d ub (r + 1) st2) := by
  have hp := hInv.prev
  have h1 := hp.h1
  have h2 := hp.h2
  have hdead1 : ∀ k, k < st.ns → above ub (naiveMsm dl dc d (r + 1) k) :=
    colPersist hN hp.hdead
  have hrel0 : rel ub (st.prevb st.ns + dl (r + 1) st.ns)
      (naiveMsm dl dc d (r + 1) st.ns) := by
    rcases Nat.eq_zero_or_pos st.ns with hz | hpos
    · rw [hz, naiveMsm_sz]
      have hr := hp.hrel 0 (by omega) (by omega)
      exact rel_add hr (hN.1 _ _)
    · obtain ⟨k, hk⟩ : ∃ k, st.ns = k + 1 := ⟨st.ns - 1, by omega⟩
      rw [hk, naiveMsm_ss]
      have hr := hp.hrel (k + 1) (by omega) (by omega)
      rw [hk] at hdead1
      exact rel_cell_top (above_add (hp.hdead k (by omega)) (hN.2.2 _ _))
        (above_add (hdead1 k (by omega)) (hN.2.1 _ _)) (rel_add hr (hN.1 _ _))
  rw [rowStep_eq_rowTail]
  by_cases hcb0 : ((st.prevb st.ns + dl (r + 1) st.ns : ℚ) : WithTop ℚ) ≤ ub
  · rw [if_pos hcb0]
    refine rowTail_spec hN hcu hp _ ⟨?_, ?_, ?_, ?_, ?_, ?_, ?_, ?_, ?_, ?_, ?_⟩ rfl
    · show st.ns ≤ st.ns; omega
    · show 1 ≤ st.ns + 1; omega
    · show st.ns ≤ st.ns + 1; omega
    · show st.ns + 1 ≤ st.ns + 1; omega
    · show st.ns + 1 ≤ nc; omega
    · intro _; show st.ns < st.ns + 1; omega
    · exact hdead1
    · intro k2 hk2a hk2b
      replace hk2a : st.ns ≤ k2 := hk2a
      replace hk2b : k2 < st.ns + 1 := hk2b
      have hq : k2 = st.ns := by omega
      subst hq
      show rel ub (Function.update st.oldb st.ns
        (st.prevb st.ns + dl (r + 1) st.ns) st.ns) (naiveMsm dl dc d (r + 1) st.ns)
      rw [Function.update_same]
      exact hrel0
    · intro k2 hk2a hk2b
      replace hk2a : st.ns + 1 ≤ k2 := hk2a
      replace hk2b : k2 < st.ns + 1 := hk2b
      exact absurd (lt_of_le_of_lt hk2a hk2b) (by omega)
    · intro _
      show rel ub _ (naiveMsm dl dc d (r + 1) (st.ns + 1 - 1))
      rw [Nat.add_sub_cancel]
      exact hrel0
    · intro hcon
      replace hcon : st.ns = st.ns + 1 := hcon
      exact absurd hcon (by omega)
  · rw [if_neg hcb0]
    have habove : above ub (naiveMsm dl dc d (r + 1) st.ns) := above_of_rel hrel0 hcb0
    refine rowTail_spec hN hcu hp _ ⟨?_, ?_, ?_, ?_, ?_, ?_, ?_, ?_, ?_, ?_, ?_⟩ rfl
    · show st.ns ≤ st.ns + 1; omega
    · show 1 ≤ st.ns + 1; omega
    · show st.ns + 1 ≤ st.ns + 1; omega
    · show st.ns ≤ st.ns + 1; omega
    · show st.ns + 1 ≤ nc; omega
    · intro hcon
      replace hcon : st.ns + 1 < st.ns + 1 := hcon
      exact absurd hcon (by omega)
    · intro k2 hk2
      replace hk2 : k2 < st.ns + 1 := hk2
      show above ub (naiveMsm dl dc d (r + 1) k2)
      rcases Nat.lt_or_ge k2 st.ns with hlt | hge
      · exact hdead1 k2 hlt
      · have hq : k2 = st.ns := by omega
        subst hq
        exact habove
    · intro k2 hk2a hk2b
      replace hk2a : st.ns + 1 ≤ k2 := hk2a
      replace hk2b : k2 < st.ns + 1 := hk2b
      exact absurd (lt_of_le_of_lt hk2a hk2b) (by omega)
    · intro k2 hk2a hk2b
      replace hk2a : st.ns ≤ k2 := hk2a
      replace hk2b : k2 < st.ns + 1 := hk2b
      have hq : k2 = st.ns := by omega
      subst hq
      exact habove
    · intro hcon
      replace hcon : st.ns + 1 < st.ns + 1 := hcon
      exact absurd hcon (by omega)
    · intro _
      exact not_le.1 hcb0

theorem rowsGo_spec {nl : ℕ} (hN : NonnegCosts dl dc d) (hcu : cutoff ≤ ub) :
    ∀ fuel i (st : St), fuel + i = nl → 1 ≤ i →
      RowInv nc dl dc d ub (i - 1) st →
      rowsGo nl nc dl dc d cutoff ub fuel i st =
        (if (naiveMsm dl dc d (nl - 1) (nc - 1) : WithTop ℚ) ≤ cutoff
         then ((naiveMsm dl dc d (nl - 1) (nc - 1) : ℚ) : WithTop ℚ) else ⊤) := by
  intro fuel
  induction fuel with
  | zero =>
    intro i st hfi h1i hInv
    have hi : i - 1 = nl - 1 := by omega
    rw [hi] at hInv
    simp only [rowsGo]
    by_cases hMf : ((naiveMsm dl dc d (nl - 1) (nc - 1) : ℚ) : WithTop ℚ) ≤ cutoff
    · rw [if_pos hMf]
      have hMub : ((naiveMsm dl dc d (nl - 1) (nc - 1) : ℚ) : WithTop ℚ) ≤ ub :=
        le_trans hMf hcu
      have hjnc : st.j = nc := by
        by_contra hne
        exact absurd hMub (above_iff_not_le.1 (hInv.htail2 hne))
      have hrel := hInv.htail1 hjnc
      have hcost : st.cost = naiveMsm dl dc d (nl - 1) (nc - 1) := hrel.2 hMub
      rw [if_pos ⟨hjnc, by rw [hcost]; exact hMf⟩, hcost]
    · rw [if_neg hMf]
      by_cases hjnc : st.j = nc
      · have hrel := hInv.htail1 hjnc
        have hnc2 : ¬((st.cost : WithTop ℚ) ≤ cutoff) := by
          intro hle
          apply hMf
          calc ((naiveMsm dl dc d (nl - 1) (nc - 1) : ℚ) : WithTop ℚ)
              ≤ (st.cost : WithTop ℚ) := by exact_mod_cast hrel.1
            _ ≤ cutoff := hle
        rw [if_neg (by rintro ⟨-, hcf⟩; exact hnc2 hcf)]
      · rw [if_neg (by rintro ⟨hcf, -⟩; exact hjnc hcf)]
  | succ fuel ih =>
    intro i st hfi h1i hInv
    obtain ⟨r, hr⟩ : ∃ r, i = r + 1 := ⟨i - 1, by omega⟩
    subst hr
    have hInv2 : RowInv nc dl dc d ub r st := by
      rw [show r + 1 - 1 = r from by omega] at hInv
      exact hInv
    have h2 := hInv2.prev.h2
    have h1 := hInv2.prev.h1
    rcases rowStep_spec hN hcu hInv2 with ⟨herr, hdead⟩ | ⟨st2, hok, hInv3⟩
    · simp only [rowsGo]
      rw [herr]
      have habove : above ub (naiveMsm dl dc d (nl - 1) (nc - 1)) :=
        allAboveFuture hN hdead (nl - 1) (by omega) (nc - 1) (by omega)
      have hnotc : ¬((naiveMsm dl dc d (nl - 1) (nc - 1) : ℚ) : WithTop ℚ) ≤ cutoff := by
        intro hle
        exact absurd (le_trans hle hcu) (above_iff_not_le.1 habove)
      rw [if_neg hnotc]
    · simp only [rowsGo]
      rw [hok]
      refine ih (r + 2) st2 (by omega) (by omega) ?_
      rw [show r + 2 - 1 = r + 1 from by omega]
      exact hInv3

theorem line0_spec (hN : NonnegCosts dl dc d) :
    ∀ fuel j cost buf pp, fuel + j = nc → 1 ≤ j → pp = j →
      cost = naiveMsm dl dc d 0 (j - 1) →
      (∀ k, k < j → buf k = naiveMsm dl dc d 0 k) →
      ∀ oldb,
        RowInv nc dl dc d ub 0
          ⟨(line0go dc ub fuel j cost buf pp).1, oldb, 0,
           (line0go dc ub fuel j cost buf pp).2.1,
           (line0go dc ub fuel j cost buf pp).2.2.1,
           (line0go dc ub fuel j cost buf pp).2.2.2⟩ := by
  intro fuel
  induction fuel with
  | zero =>
    intro j cost buf pp hfj h1j hpj hcost hbuf oldb
    have hj : j = nc := by omega
    simp only [line0go]
    refine ⟨⟨?_, ?_, ?_, ?_, ?_⟩, ?_, ?_⟩
    · show 0 < pp; omega
    · show pp ≤ nc; omega
    · intro k hk1 hk2
      replace hk2 : k < pp := hk2
      exact rel_of_eq (hbuf k (by omega))
    · intro k hk
      replace hk : k < 0 := hk
      exact absurd hk (by omega)
    · intro k hk1 hk2
      replace hk1 : pp ≤ k := hk1
      replace hk2 : k < nc := hk2
      exact absurd (lt_of_le_of_lt hk1 hk2) (by omega)
    · intro _
      show rel ub cost (naiveMsm dl dc d 0 (nc - 1))
      rw [← hj]
      exact rel_of_eq hcost
    · intro hne
      replace hne : j ≠ nc := hne
      exact absurd hj hne
  | succ fuel ih =>
    intro j cost buf pp hfj h1j hpj hcost hbuf oldb
    have hjlt : j < nc := by omega
    obtain ⟨k0, hk0⟩ : ∃ k0, j = k0 + 1 := ⟨j - 1, by omega⟩
    have hcell : cost + dc 0 j = naiveMsm dl dc d 0 j := by
      rw [hk0, naiveMsm_zs]
      rw [hk0, Nat.add_sub_cancel] at hcost
      rw [hcost]
    simp only [line0go]
    by_cases hcb : ((cost + dc 0 j : ℚ) : WithTop ℚ) ≤ ub
    · rw [if_pos hcb]
      refine ih (j + 1) (cost + dc 0 j) _ (j + 1) (by omega) (by omega) rfl ?_ ?_ oldb
      · rw [Nat.add_sub_cancel]
        exact hcell
      · intro k hk
        rcases Nat.lt_or_ge k j with hlt | hge
        · rw [Function.update_noteq (by omega)]
          exact hbuf k hlt
        · have hq : k = j := by omega
          subst hq
          rw [Function.update_same]
          exact hcell
    · rw [if_neg hcb]
      have habove : above ub (naiveMsm dl dc d 0 j) := by
        rw [← hcell]
        exact not_le.1 hcb
      refine ⟨⟨?_, ?_, ?_, ?_, ?_⟩, ?_, ?_⟩
      · show 0 < pp; omega
      · show pp ≤ nc; omega
      · intro k hk1 hk2
        replace hk2 : k < pp := hk2
        show rel ub (Function.update buf j _ k) _
        rw [Function.update_noteq (by omega)]
        exact rel_of_eq (hbuf k (by omega))
      · intro k hk
        replace hk : k < 0 := hk
        exact absurd hk (by omega)
      · intro k hk1 hk2
        replace hk1 : pp ≤ k := hk1
        replace hk2 : k < nc := hk2
        exact above_mono habove (naiveMsm_row0_mono hN (by omega))
      · intro hq
        replace hq : j = nc := hq
        exact absurd hq (by omega)
      · intro _
        show above ub (naiveMsm dl dc d 0 (nc - 1))
        exact above_mono habove (naiveMsm_row0_mono hN (by omega))

/-- Full characterization of the internal kernel against the naive DP: the result is
the naive value when it is below the cutoff, `+∞` otherwise. -/
theorem msmIcore_spec {nl nc : ℕ} {dl dc d : CostFun} {cutoff ub : WithTop ℚ}
    (hN : NonnegCosts dl dc d) (hcu : cutoff ≤ ub) (hl : 0 < nl) (hc : 0 < nc)
    (buf0 : ℕ → ℚ) :
    msmIcore nl nc dl dc d cutoff ub buf0 =
      (if (naiveMsm dl dc d (nl - 1) (nc - 1) : WithTop ℚ) ≤ cutoff
       then ((naiveMsm dl dc d (nl - 1) (nc - 1) : ℚ) : WithTop ℚ) else ⊤) := by
  simp only [msmIcore]
  by_cases hcb : ((d 0 0 : ℚ) : WithTop ℚ) ≤ ub
  · rw [if_pos hcb]
    exact rowsGo_spec hN hcu (nl - 1) 1 _ (by omega) (by omega)
      (line0_spec hN (nc - 1) 1 (d 0 0) _ 1 (by omega) (by omega) rfl
        (by rw [Nat.sub_self]; exact naiveMsm_zz.symm)
        (by
          intro k hk
          have hq : k = 0 := by omega
          subst hq
          rw [Function.update_same]
          exact naiveMsm_zz.symm)
        (fun _ => (0 : ℚ)))
  · rw [if_neg hcb]
    have habove : above ub (naiveMsm dl dc d 0 0) := by
      rw [naiveMsm_zz]
      exact not_le.1 hcb
    have hfin : above ub (naiveMsm dl dc d (nl - 1) (nc - 1)) :=
      above_mono habove (naiveMsm_origin_le hN (nl - 1) (nc - 1))
    have hnotc : ¬((naiveMsm dl dc d (nl - 1) (nc - 1) : ℚ) : WithTop ℚ) ≤ cutoff := by
      intro hle
      exact absurd (le_trans hle hcu) (above_iff_not_le.1 hfin)
    rw [if_neg hnotc]

end StageProofs

/-! ### Characterization of the public wrappers -/

/-- The cutoff the wrapper derives from its `ub` argument. -/
def ubaCutoff (nl nc : ℕ) (dl dc d : CostFun) : UbArg → WithTop ℚ
  | UbArg.pinf => ((diagWalk nl nc dl dc d : ℚ) : WithTop ℚ)
  | UbArg.qnan => ⊤
  | UbArg.val q => ((q : ℚ) : WithTop ℚ)

theorem msmUbBlock_exact {nl nc : ℕ} {dl dc d : CostFun} {cutoff : WithTop ℚ} :
    msmUbBlock exactNextafter nl nc dl dc d cutoff = cutoff := by
  unfold msmUbBlock exactNextafter
  split <;> rfl

theorem msmInternal_spec {nl nc : ℕ} {dl dc d : CostFun} {cutoff : WithTop ℚ}
    (hN : NonnegCosts dl dc d) (hl : 0 < nl) (hc : 0 < nc) (buf0 : ℕ → ℚ) :
    msmInternal nl nc dl dc d cutoff buf0 =
      (if (naiveMsm dl dc d (nl - 1) (nc - 1) : WithTop ℚ) ≤ cutoff
       then ((naiveMsm dl dc d (nl - 1) (nc - 1) : ℚ) : WithTop ℚ) else ⊤) := by
  unfold msmInternal
  rw [msmUbBlock_exact]
  exact msmIcore_spec hN (le_refl cutoff) hl hc buf0

theorem msmTop_spec {nl nc : ℕ} {dl dc d : CostFun} (hN : NonnegCosts dl dc d)
    (hl : 0 < nl) (hc : 0 < nc) (uba : UbArg) (buf0 : ℕ → ℚ) :
    msmTop nl nc dl dc d uba buf0 =
      (if (naiveMsm dl dc d (nl - 1) (nc - 1) : WithTop ℚ) ≤ ubaCutoff nl nc dl dc d uba
       then ((naiveMsm dl dc d (nl - 1) (nc - 1) : ℚ) : WithTop ℚ) else ⊤) := by
  unfold msmTop
  rw [if_neg (by omega : ¬(nl = 0 ∧ nc = 0)), if_neg (by omega : ¬(nl = 0 ∨ nc = 0))]
  cases uba with
  | pinf => exact msmInternal_spec hN hl hc buf0
  | qnan => exact msmInternal_spec hN hl hc buf0
  | val q => exact msmInternal_spec hN hl hc buf0

/-- With `ub = +∞` the heuristic cutoff is admissible, so the kernel returns the
naive DP value. -/
theorem msmTop_pinf (nl nc : ℕ) (dl dc d : CostFun) (hN : NonnegCosts dl dc d)
    (hl : 0 < nl) (hc : 0 < nc) (buf0 : ℕ → ℚ) :
    msmTop nl nc dl dc d UbArg.pinf buf0 =
      ((naiveMsm dl dc d (nl - 1) (nc - 1) : ℚ) : WithTop ℚ) := by
  rw [msmTop_spec hN hl hc UbArg.pinf buf0]
  rw [if_pos]
  show (_ : WithTop ℚ) ≤ ((diagWalk nl nc dl dc d : ℚ) : WithTop ℚ)
  exact_mod_cast naiveMsm_le_diagWalk hl hc

/-- With `ub = NaN` the cutoff is `+∞`, so the kernel returns the naive DP value. -/
theorem msmTop_qnan (nl nc : ℕ) (dl dc d : CostFun) (hN : NonnegCosts dl dc d)
    (hl : 0 < nl) (hc : 0 < nc) (buf0 : ℕ → ℚ) :
    msmTop nl nc dl dc d UbArg.qnan buf0 =
      ((naiveMsm dl dc d (nl - 1) (nc - 1) : ℚ) : WithTop ℚ) := by
  rw [msmTop_spec hN hl hc UbArg.qnan buf0]
  exact if_pos le_top

/-- The `ad1` cost family is nonnegative as soon as the split/merge cost `c` is. -/
theorem nonneg_ad1_family (lines cols : List ℚ) {c : ℚ} (hc : 0 ≤ c) :
    NonnegCosts (msmLinesAd1 lines cols c) (msmColsAd1 lines cols c) (ad1 lines cols) := by
  refine ⟨?_, ?_, ?_⟩
  · intro i j
    unfold msmLinesAd1 msmCostAd1
    dsimp only
    split
    · exact hc
    · exact add_nonneg hc (le_min (abs_nonneg _) (abs_nonneg _))
  · intro i j
    unfold msmColsAd1 msmCostAd1
    dsimp only
    split
    · exact hc
    · exact add_nonneg hc (le_min (abs_nonneg _) (abs_nonneg _))
  · intro i j
    exact abs_nonneg _

/-- **C1.** For every pair of nonempty series and every split/merge cost `c ≥ 0`, the
EAP MSM kernel called with `ub = +∞` returns exactly the naive full-matrix DP value,
and with any finite cutoff it returns either exactly the naive DP value or `+∞`. -/
theorem claim_C1 (A B : List ℚ) (c : ℚ) (hc : 0 ≤ c) (hA : A ≠ []) (hB : B ≠ []) :
    msmUni A B c UbArg.pinf = ((naiveMsmUni A B c : ℚ) : WithTop ℚ)
    ∧ ∀ q : ℚ, msmUni A B c (UbArg.val q) = ((naiveMsmUni A B c : ℚ) : WithTop ℚ)
        ∨ msmUni A B c (UbArg.val q) = ⊤ := by
  have hN := nonneg_ad1_family A B hc
  have hlA : 0 < A.length := List.length_pos.2 hA
  have hlB : 0 < B.length := List.length_pos.2 hB
  constructor
  · exact msmTop_pinf _ _ _ _ _ hN hlA hlB _
  · intro q
    unfold msmUni naiveMsmUni
    rw [msmTop_spec hN hlA hlB (UbArg.val q) _]
    by_cases hq : (naiveMsm (msmLinesAd1 A B c) (msmColsAd1 A B c) (ad1 A B)
        (A.length - 1) (B.length - 1) : WithTop ℚ)
        ≤ ubaCutoff A.length B.length (msmLinesAd1 A B c) (msmColsAd1 A B c) (ad1 A B)
            (UbArg.val q)
    · rw [if_pos hq]
      exact Or.inl rfl
    · rw [if_neg hq]
      exact Or.inr rfl

/-- Witness for C1 at a concrete input. -/
theorem claim_C1_witness :
    (0 : ℚ) ≤ 1 ∧ ([1, 2] : List ℚ) ≠ [] ∧
      msmUni [1, 2] [2, 3] 1 UbArg.pinf = ((naiveMsmUni [1, 2] [2, 3] 1 : ℚ) : WithTop ℚ) :=
  ⟨by norm_num, by decide,
    (claim_C1 [1, 2] [2, 3] 1 (by norm_num) (by decide) (by decide)).1⟩

/-- **C3.** The MSM distance is monotone in its upper bound: for `UB1 ≤ UB2`, if both
calls return a finite value the values are equal, and the call with the looser bound
returns exactly the finite value of the tighter one; tightening can only turn a
finite result into `+∞`. -/
theorem claim_C3 (A B : List ℚ) (c : ℚ) (hc : 0 ≤ c) (hA : A ≠ []) (hB : B ≠ [])
    (q1 q2 : ℚ) (h12 : q1 ≤ q2) :
    (msmUni A B c (UbArg.val q1) ≠ ⊤ ∧ msmUni A B c (UbArg.val q2) ≠ ⊤ →
      msmUni A B c (UbArg.val q1) = msmUni A B c (UbArg.val q2))
    ∧ (msmUni A B c (UbArg.val q1) ≠ ⊤ →
      msmUni A B c (UbArg.val q2) = msmUni A B c (UbArg.val q1)) := by
  have hN := nonneg_ad1_family A B hc
  have hlA : 0 < A.length := List.length_pos.2 hA
  have hlB : 0 < B.length := List.length_pos.2 hB
  have hs1 := msmTop_spec hN hlA hlB (UbArg.val q1) (fun _ => (0 : ℚ))
  have hs2 := msmTop_spec hN hlA hlB (UbArg.val q2) (fun _ => (0 : ℚ))
  have hkey : msmUni A B c (UbArg.val q1) ≠ ⊤ →
      msmUni A B c (UbArg.val q2) = msmUni A B c (UbArg.val q1) := by
    intro h1
    unfold msmUni at h1 ⊢
    rw [hs1] at h1 ⊢
    rw [hs2]
    simp only [ubaCutoff] at h1 ⊢
    by_cases hq1 : (naiveMsm (msmLinesAd1 A B c) (msmColsAd1 A B c) (ad1 A B)
        (A.length - 1) (B.length - 1) : WithTop ℚ) ≤ ((q1 : ℚ) : WithTop ℚ)
    · rw [if_pos hq1]
      rw [if_pos (le_trans hq1
        (show ((q1 : ℚ) : WithTop ℚ) ≤ ((q2 : ℚ) : WithTop ℚ) by exact_mod_cast h12))]
    · rw [if_neg hq1] at h1
      exact absurd rfl h1
  exact ⟨fun h => (hkey h.1).symm, hkey⟩

/-- Witness for C3 at a concrete input. -/
theorem claim_C3_witness :
    (0 : ℚ) ≤ 1 ∧ (3 : ℚ) ≤ 10 ∧
      (msmUni [1, 2] [2, 3] 1 (UbArg.val 3) ≠ ⊤ →
        msmUni [1, 2] [2, 3] 1 (UbArg.val 10) = msmUni [1, 2] [2, 3] 1 (UbArg.val 3)) :=
  ⟨by norm_num, by norm_num,
    (claim_C3 [1, 2] [2, 3] 1 (by norm_num) (by decide) (by decide) 3 10
      (by norm_num)).2⟩

/-- **C10.** The MSM result does not depend on the incoming contents of the
caller-supplied scratch buffer: the kernel reinitializes it with
`buffer_v.assign(nbcols*2, 0)` before any use, and the buffer-less helper agrees. -/
theorem claim_C10 (nl nc : ℕ) (dl dc d : CostFun) (uba : UbArg) (cutoff : WithTop ℚ)
    (v1 v2 : ℕ → ℚ) :
    msmInternal nl nc dl dc d cutoff v1 = msmInternal nl nc dl dc d cutoff v2
    ∧ msmTop nl nc dl dc d uba v1 = msmTop nl nc dl dc d uba v2
    ∧ msmTop nl nc dl dc d uba v1 = msmTopNoBuf nl nc dl dc d uba :=
  ⟨rfl, rfl, rfl⟩

/-! ### Reference DPs from the test files

`reference::erp_matrix` (test/distance/univariate/erp.cpp, lines 20-72) and the
anonymous `dtw_matrix` (test/distance/multivariate_dep/m_dtw.cpp, lines 32-61).
Cells live in `WithTop ℚ` because the reference matrices are initialised to `PINF`.
-/

/-- `mock::square_dist` (mock-series header staged as the second document of
`src/CMakeLists.txt`, lines 243-247): `d = a - b; return d * d;`. -/
def square_dist (a b : ℚ) : ℚ := (a - b) * (a - b)

/-- First line of the reference ERP matrix (`matrix[0][j]`). -/
def erpRow0 (cols : List ℚ) (gv : ℚ) : ℕ → WithTop ℚ
  | 0 => 0
  | j + 1 => erpRow0 cols gv j + ((square_dist gv (listAt cols j) : ℚ) : WithTop ℚ)

/-- Line `i ≥ 1` of the reference ERP matrix given line `i - 1`; cells outside the
window `[max(i-w,1), min(i+w+1, nbcols+1))` keep their `PINF` initialisation. -/
def erpNextRow (lines cols : List ℚ) (gv : ℚ) (w nbcols i : ℕ)
    (prev : ℕ → WithTop ℚ) : ℕ → WithTop ℚ
  | 0 => prev 0 + ((square_dist (listAt lines (i - 1)) gv : ℚ) : WithTop ℚ)
  | j + 1 =>
    if max (i - w) 1 ≤ j + 1 ∧ j + 1 < min (i + w + 1) (nbcols + 1) then
      min (erpNextRow lines cols gv w nbcols i prev j
            + ((square_dist gv (listAt cols j) : ℚ) : WithTop ℚ))
        (min (prev j + ((square_dist (listAt lines (i - 1)) (listAt cols j) : ℚ) : WithTop ℚ))
          (prev (j + 1) + ((square_dist (listAt lines (i - 1)) gv : ℚ) : WithTop ℚ)))
    else ⊤

/-- Cell `(i, j)` of the reference ERP matrix. -/
def erpCellRow (lines cols : List ℚ) (gv : ℚ) (w nbcols : ℕ) : ℕ → ℕ → WithTop ℚ
  | 0 => erpRow0 cols gv
  | i + 1 => erpNextRow lines cols gv w nbcols (i + 1) (erpCellRow lines cols gv w nbcols i)

/-- `reference::erp_matrix`: length checks, swap to the shorter series as columns,
window capping, feasibility check, then the full-matrix DP. -/
def erp_matrix (series1 series2 : List ℚ) (gv : ℚ) (w : ℕ) : WithTop ℚ :=
  let length1 := series1.length
  let length2 := series2.length
  if length1 = 0 ∧ length2 = 0 then 0
  else if length1 = 0 ∧ length2 ≠ 0 then ⊤
  else if length1 ≠ 0 ∧ length2 = 0 then ⊤
  else
    let cols := if length1 < length2 then series1 else series2
    let lines := if length1 < length2 then series2 else series1
    let nbcols := min length1 length2
    let nblines := max length1 length2
    let w2 := if nblines < w then nblines else w
    if w2 < nblines - nbcols then ⊤
    else erpCellRow lines cols gv w2 nbcols nblines nbcols

/-- `sqedN`: squared Euclidean distance across `dim` interleaved channels. -/
def sqedN (a : List ℚ) (astart : ℕ) (b : List ℚ) (bstart : ℕ) (dim : ℕ) : ℚ :=
  sumFrom (fun k => (listAt a (astart * dim + k) - listAt b (bstart * dim + k)) ^ 2) 0 dim

/-- First line of the reference DTW matrix: only `matrix[0][0] = 0` is written. -/
def dtwRow0 : ℕ → WithTop ℚ
  | 0 => 0
  | _ + 1 => ⊤

/-- Line `i ≥ 1` of the reference DTW matrix given line `i - 1`; only columns
`1 .. lb` of lines `1 .. la` are written. -/
def dtwNextRow (a b : List ℚ) (dim la lb i : ℕ) (prev : ℕ → WithTop ℚ) :
    ℕ → WithTop ℚ
  | 0 => ⊤
  | j + 1 =>
    if i ≤ la ∧ j + 1 ≤ lb then
      min (dtwNextRow a b dim la lb i prev j) (min (prev j) (prev (j + 1)))
        + ((sqedN a (i - 1) b j dim : ℚ) : WithTop ℚ)
    else ⊤

/-- Cell `(i, j)` of the reference DTW matrix. -/
def dtwCellRow (a b : List ℚ) (dim la lb : ℕ) : ℕ → ℕ → WithTop ℚ
  | 0 => dtwRow0
  | i + 1 => dtwNextRow a b dim la lb (i + 1) (dtwCellRow a b dim la lb i)

/-- The anonymous `dtw_matrix` reference from the multivariate DTW test. -/
def dtw_matrix (a b : List ℚ) (dim : ℕ) : WithTop ℚ :=
  let la := a.length / dim
  let lb := b.length / dim
  if la = 0 ∧ lb = 0 then 0
  else if la = 0 ∧ lb ≠ 0 then ⊤
  else if la ≠ 0 ∧ lb = 0 then ⊤
  else dtwCellRow a b dim la lb la lb

/-! ### Self-distance is exactly zero (C4) -/

theorem sumFrom_zero {f : ℕ → ℚ} {a : ℕ} (hf : ∀ k, f (a + k) = 0) :
    ∀ n, sumFrom f a n = 0 := by
  intro n
  induction n with
  | zero => rfl
  | succ n ih => simp [sumFrom, ih, hf n]

theorem naiveMsm_self_zero {dl dc d : CostFun} (hN : NonnegCosts dl dc d)
    (hdiag : ∀ i, d i i = 0) (i : ℕ) : naiveMsm dl dc d i i = 0 := by
  refine le_antisymm ?_ (naiveMsm_nonneg hN i i)
  have h := @naiveMsm_diag_le dl dc d i
  rwa [sumFrom_zero (by intro k; simpa using hdiag k) (i + 1)] at h

theorem square_dist_nonneg (a b : ℚ) : 0 ≤ square_dist a b := by
  unfold square_dist; exact mul_self_nonneg (a - b)

theorem sumFrom_nonneg {f : ℕ → ℚ} {a : ℕ} (hf : ∀ k, 0 ≤ f k) :
    ∀ n, 0 ≤ sumFrom f a n := by
  intro n
  induction n with
  | zero => exact le_refl _
  | succ n ih => exact add_nonneg ih (hf (a + n))

theorem sqedN_nonneg (a : List ℚ) (i : ℕ) (b : List ℚ) (j dim : ℕ) :
    0 ≤ sqedN a i b j dim := by
  unfold sqedN
  exact sumFrom_nonneg (fun k => by positivity) dim

theorem erpCellRow_nonneg (lines cols : List ℚ) (gv : ℚ) (w nbcols : ℕ) :
    ∀ i j, (0 : WithTop ℚ) ≤ erpCellRow lines cols gv w nbcols i j := by
  intro i
  induction i with
  | zero =>
    intro j
    induction j with
    | zero => exact le_refl _
    | succ j ihj =>
      show (0 : WithTop ℚ) ≤ erpRow0 cols gv j + _
      refine add_nonneg ihj ?_
      exact_mod_cast square_dist_nonneg gv (listAt cols j)
  | succ i ihi =>
    intro j
    induction j with
    | zero =>
      show (0 : WithTop ℚ) ≤ erpCellRow lines cols gv w nbcols i 0 + _
      refine add_nonneg (ihi 0) ?_
      exact_mod_cast square_dist_nonneg _ _
    | succ j ihj =>
      show (0 : WithTop ℚ) ≤ erpNextRow lines cols gv w nbcols (i + 1)
        (erpCellRow lines cols gv w nbcols i) (j + 1)
      unfold erpNextRow
      split
      · refine le_min (add_nonneg ihj (by exact_mod_cast square_dist_nonneg _ _))
          (le_min ?_ ?_)
        · exact add_nonneg (ihi j) (by exact_mod_cast square_dist_nonneg _ _)
        · exact add_nonneg (ihi (j + 1)) (by exact_mod_cast square_dist_nonneg _ _)
      · exact le_top

theorem erpCellRow_self_diag (s : List ℚ) (gv : ℚ) (w nbcols : ℕ) :
    ∀ i, i ≤ nbcols → erpCellRow s s gv w nbcols i i = 0 := by
  intro i
  induction i with
  | zero => intro _; rfl
  | succ i ihi =>
    intro hle
    refine le_antisymm ?_ (erpCellRow_nonneg s s gv w nbcols (i + 1) (i + 1))
    show erpNextRow s s gv w nbcols (i + 1) (erpCellRow s s gv w nbcols i) (i + 1) ≤ 0
    unfold erpNextRow
    rw [if_pos (by constructor <;> [omega; exact lt_min (by omega) (by omega)])]
    refine le_trans (le_trans (min_le_right _ _) (min_le_left _ _)) ?_
    rw [ihi (by omega)]
    have hz : square_dist (listAt s (i + 1 - 1)) (listAt s i) = 0 := by
      rw [Nat.add_sub_cancel]
      unfold square_dist; ring
    rw [hz]
    simp

/-- The reference ERP matrix on identical series is exactly zero, for any gap value
and window. -/
theorem erp_matrix_self (s : List ℚ) (gv : ℚ) (w : ℕ) : erp_matrix s s gv w = 0 := by
  unfold erp_matrix
  rcases Nat.eq_zero_or_pos s.length with hz | hpos
  · rw [if_pos ⟨hz, hz⟩]
  · rw [if_neg (by omega), if_neg (by omega), if_neg (by omega),
      if_neg (by simp), if_neg (by omega)]
    simp only [lt_irrefl, if_false, min_self, max_self]
    exact erpCellRow_self_diag s gv _ s.length s.length (le_refl _)

theorem sqedN_self (a : List ℚ) (i dim : ℕ) : sqedN a i a i dim = 0 := by
  unfold sqedN
  exact sumFrom_zero (by intro k; simp) dim

theorem dtwCellRow_nonneg (a b : List ℚ) (dim la lb : ℕ) :
    ∀ i j, (0 : WithTop ℚ) ≤ dtwCellRow a b dim la lb i j := by
  intro i
  induction i with
  | zero =>
    intro j
    cases j with
    | zero => exact le_refl _
    | succ j => exact le_top
  | succ i ihi =>
    intro j
    induction j with
    | zero => exact le_top
    | succ j ihj =>
      show (0 : WithTop ℚ) ≤ dtwNextRow a b dim la lb (i + 1)
        (dtwCellRow a b dim la lb i) (j + 1)
      unfold dtwNextRow
      split
      · refine add_nonneg (le_min ihj (le_min (ihi j) (ihi (j + 1)))) ?_
        exact_mod_cast sqedN_nonneg a (i + 1 - 1) b j dim
      · exact le_top

theorem dtwCellRow_self_diag (a : List ℚ) (dim la : ℕ) :
    ∀ i, i ≤ la → dtwCellRow a a dim la la i i = 0 := by
  intro i
  induction i with
  | zero => intro _; rfl
  | succ i ihi =>
    intro hle
    refine le_antisymm ?_ (dtwCellRow_nonneg a a dim la la (i + 1) (i + 1))
    show dtwNextRow a a dim la la (i + 1) (dtwCellRow a a dim la la i) (i + 1) ≤ 0
    unfold dtwNextRow
    rw [if_pos ⟨hle, hle⟩]
    have hz : sqedN a (i + 1 - 1) a i dim = 0 := by
      rw [Nat.add_sub_cancel]
      exact sqedN_self a i dim
    rw [hz]
    have hdz : ((0 : ℚ) : WithTop ℚ) = 0 := rfl
    rw [hdz, add_zero]
    exact le_trans (le_trans (min_le_right _ _) (min_le_left _ _)) (le_of_eq (ihi (by omega)))

/-- The reference DTW matrix on identical series is exactly zero, for any channel
count. -/
theorem dtw_matrix_self (a : List ℚ) (dim : ℕ) : dtw_matrix a a dim = 0 := by
  unfold dtw_matrix
  rcases Nat.eq_zero_or_pos (a.length / dim) with hz | hpos
  · rw [if_pos ⟨hz, hz⟩]
  · rw [if_neg (by omega), if_neg (by omega), if_neg (by omega)]
    exact dtwCellRow_self_diag a dim (a.length / dim) (a.length / dim) (le_refl _)

/-- **C4.** Self-distance is exactly zero: the EAP MSM kernel on identical series
returns `0` (for any split/merge cost `c ≥ 0`), the reference ERP matrix on identical
series is `0` for every gap value and window, and the reference DTW matrix on
identical series is `0` for every channel count. -/
theorem claim_C4 :
    (∀ (A : List ℚ) (c : ℚ), 0 ≤ c → A ≠ [] → msmUni A A c UbArg.pinf = 0)
    ∧ (∀ (s : List ℚ) (gv : ℚ) (w : ℕ), erp_matrix s s gv w = 0)
    ∧ (∀ (a : List ℚ) (dim : ℕ), dtw_matrix a a dim = 0) := by
  refine ⟨?_, erp_matrix_self, fun a dim => dtw_matrix_self a dim⟩
  intro A c hc hA
  have hN := nonneg_ad1_family A A hc
  have hl : 0 < A.length := List.length_pos.2 hA
  unfold msmUni
  rw [msmTop_pinf _ _ _ _ _ hN hl hl _]
  have hz : naiveMsm (msmLinesAd1 A A c) (msmColsAd1 A A c) (ad1 A A)
      (A.length - 1) (A.length - 1) = 0 := by
    refine naiveMsm_self_zero hN ?_ (A.length - 1)
    intro i
    unfold ad1
    simp
  rw [hz]
  rfl

/-- Witness for C4 at concrete inputs. -/
theorem claim_C4_witness :
    (0 : ℚ) ≤ 1 ∧ ([1, 2] : List ℚ) ≠ [] ∧ msmUni [1, 2] [1, 2] 1 UbArg.pinf = 0 ∧
      erp_matrix [3, 5] [3, 5] 7 0 = 0 ∧ dtw_matrix [1, 2, 3, 4] [1, 2, 3, 4] 2 = 0 :=
  ⟨by norm_num, by decide, claim_C4.1 [1, 2] 1 (by norm_num) (by decide),
    claim_C4.2.1 [3, 5] 7 0, claim_C4.2.2 [1, 2, 3, 4] 2⟩

/-! ### The 1-NN scans (test NN1 sections and `TestSplitter_1NN::get_branch_index`) -/

/-- The proven behaviour of an EAP kernel called with cutoff `bsf`: the true distance
if it is under the cutoff, `+∞` otherwise. -/
def eapDist (m bsf : WithTop ℚ) : WithTop ℚ := if m ≤ bsf then m else ⊤

/-- Map a best-so-far value onto the kernel `ub` argument (`PINF` disables early
abandoning, a finite value enables it). -/
def toUbArg (x : WithTop ℚ) : UbArg :=
  WithTop.recTopCoe UbArg.pinf (fun q => UbArg.val q) x

/-- The 1-NN index scan without pruning (the `v_ref` / `v` loops of the NN1 test
sections): keep the index of the strictly smallest distance seen so far. -/
def nn1ScanFull (cands : List (ℕ × WithTop ℚ)) : ℕ × WithTop ℚ :=
  cands.foldl (fun acc p => if p.2 < acc.2 then (p.1, p.2) else acc) (0, ⊤)

/-- The 1-NN index scan feeding the running best-so-far to the kernel (the `v_eap`
loop): each distance is computed with cutoff `bsf`. -/
def nn1ScanEap (cands : List (ℕ × WithTop ℚ)) : ℕ × WithTop ℚ :=
  cands.foldl
    (fun acc p =>
      let v := eapDist p.2 acc.2
      if v < acc.2 then (p.1, v) else acc) (0, ⊤)

theorem eapDist_lt_iff {m bsf : WithTop ℚ} : eapDist m bsf < bsf ↔ m < bsf := by
  unfold eapDist
  split
  · exact Iff.rfl
  · rename_i h
    constructor
    · intro hcon
      exact absurd hcon (not_lt.2 le_top)
    · intro hlt
      exact absurd (le_of_lt hlt) h

theorem eapDist_eq_of_lt {m bsf : WithTop ℚ} (h : m < bsf) : eapDist m bsf = m :=
  if_pos (le_of_lt h)

/-- The two scans agree step by step. -/
theorem nn1Scan_eq (cands : List (ℕ × WithTop ℚ)) : nn1ScanEap cands = nn1ScanFull cands := by
  unfold nn1ScanEap nn1ScanFull
  suffices h : ∀ acc : ℕ × WithTop ℚ,
      List.foldl (fun acc p => let v := eapDist p.2 acc.2;
        if v < acc.2 then (p.1, v) else acc) acc cands
      = List.foldl (fun acc p => if p.2 < acc.2 then (p.1, p.2) else acc) acc cands by
    exact h (0, ⊤)
  induction cands with
  | nil => intro acc; rfl
  | cons p l ih =>
    intro acc
    show List.foldl _ (let v := eapDist p.2 acc.2; if v < acc.2 then (p.1, v) else acc) l
      = List.foldl _ (if p.2 < acc.2 then (p.1, p.2) else acc) l
    by_cases hlt : p.2 < acc.2
    · rw [if_pos (eapDist_lt_iff.2 hlt), if_pos hlt, eapDist_eq_of_lt hlt]
      exact ih _
    · rw [if_neg (fun hcon => hlt (eapDist_lt_iff.1 hcon)), if_neg hlt]
      exact ih _

/-- **C5.** 1-NN identity under shared cutoff: scanning candidates while feeding the
running best-so-far value to the kernel selects the same index (and final distance)
as the full computation; and the MSM kernel with cutoff `bsf` indeed behaves as
`eapDist` of its naive value. -/
theorem claim_C5 :
    (∀ cands : List (ℕ × WithTop ℚ), nn1ScanEap cands = nn1ScanFull cands)
    ∧ ∀ (A B : List ℚ) (c : ℚ), 0 ≤ c → A ≠ [] → B ≠ [] → ∀ bsf : WithTop ℚ,
        msmUni A B c (toUbArg bsf)
          = eapDist ((naiveMsmUni A B c : ℚ) : WithTop ℚ) bsf := by
  refine ⟨nn1Scan_eq, ?_⟩
  intro A B c hc hA hB bsf
  have hN := nonneg_ad1_family A B hc
  have hlA : 0 < A.length := List.length_pos.2 hA
  have hlB : 0 < B.length := List.length_pos.2 hB
  induction bsf using WithTop.recTopCoe with
  | top =>
    show msmUni A B c UbArg.pinf = eapDist _ ⊤
    rw [eapDist, if_pos le_top]
    unfold msmUni naiveMsmUni
    exact msmTop_pinf _ _ _ _ _ hN hlA hlB _
  | coe q =>
    show msmUni A B c (UbArg.val q) = eapDist _ ((q : ℚ) : WithTop ℚ)
    unfold msmUni naiveMsmUni eapDist
    rw [msmTop_spec hN hlA hlB (UbArg.val q) _]
    rfl

/-- Witness for C5 at a concrete input. -/
theorem claim_C5_witness :
    (0 : ℚ) ≤ 1 ∧
      nn1ScanEap [(3, ((2 : ℚ) : WithTop ℚ)), (7, ((1 : ℚ) : WithTop ℚ))]
        = nn1ScanFull [(3, ((2 : ℚ) : WithTop ℚ)), (7, ((1 : ℚ) : WithTop ℚ))] ∧
      msmUni [1, 2] [2, 3] 1 (toUbArg ((5 : ℚ) : WithTop ℚ))
        = eapDist ((naiveMsmUni [1, 2] [2, 3] 1 : ℚ) : WithTop ℚ) ((5 : ℚ) : WithTop ℚ) :=
  ⟨by norm_num, claim_C5.1 [(3, ((2 : ℚ) : WithTop ℚ)), (7, ((1 : ℚ) : WithTop ℚ))],
    claim_C5.2 [1, 2] [2, 3] 1 (by norm_num) (by decide) (by decide) ((5 : ℚ) : WithTop ℚ)⟩

/-! ### `TestSplitter_1NN::get_branch_index` (1-NN with tie list) -/

/-- One step of the `get_branch_index` loop: strict improvement resets the tie list,
an exact tie appends the label if absent. -/
def labelStep (acc : WithTop ℚ × List ℕ) (p : ℕ × WithTop ℚ) : WithTop ℚ × List ℕ :=
  let d := eapDist p.2 acc.1
  if d < acc.1 then (d, [p.1])
  else if acc.1 = d then (acc.1, if p.1 ∈ acc.2 then acc.2 else acc.2 ++ [p.1])
  else acc

/-- The NN1 test loop of `get_branch_index`: running best-so-far plus tie labels.
Exemplars are `(label, true distance)` pairs; each call computes
`d = distance(exemplar, query, bsf)`, modelled by `eapDist`. -/
def nn1Labels (exemplars : List (ℕ × WithTop ℚ)) : WithTop ℚ × List ℕ :=
  exemplars.foldl labelStep (⊤, [])

/-- Modelled from the spec: `utils::pick_one` draws an element uniformly via the
PRNG; the draw is abstracted by a seed selecting position `seed % length`. -/
def pick_one (seed : ℕ) (l : List ℕ) : ℕ := l.getD (seed % l.length) 0

/-- `get_branch_index`: run the NN1 loop, pick a label among the ties with the PRNG,
return the branch index stored for that label. -/
def get_branch_index (exemplars : List (ℕ × WithTop ℚ)) (labelToIndex : ℕ → ℕ)
    (seed : ℕ) : ℕ :=
  labelToIndex (pick_one seed (nn1Labels exemplars).2)

theorem labelStep_ne_nil {acc : WithTop ℚ × List ℕ} {p : ℕ × WithTop ℚ}
    (h : acc.2 ≠ [] ∨ acc.1 = ⊤) : (labelStep acc p).2 ≠ [] := by
  unfold labelStep
  dsimp only
  split
  · simp
  · split
    · rcases h with h | h
      · dsimp only
        split
        · exact h
        · simp
      · dsimp only
        split
        · rename_i hmem
          exact List.ne_nil_of_mem hmem
        · simp
    · rename_i hlt heq
      rcases h with h | h
      · exact h
      · -- bsf = ⊤ and d neither improves nor ties: impossible
        exfalso
        rw [h] at hlt heq
        unfold eapDist at hlt heq
        rw [if_pos le_top] at hlt heq
        rcases lt_or_eq_of_le (le_top : p.2 ≤ ⊤) with hq | hq
        · exact hlt hq
        · exact heq hq.symm

theorem labelStep_nodup {acc : WithTop ℚ × List ℕ} {p : ℕ × WithTop ℚ}
    (h : acc.2.Nodup) : (labelStep acc p).2.Nodup := by
  unfold labelStep
  dsimp only
  split
  · simp
  · split
    · dsimp only
      split
      · exact h
      · rename_i hmem
        simp [List.nodup_append, h, hmem]
    · exact h

theorem nn1Labels_ne_nil (exemplars : List (ℕ × WithTop ℚ)) (hne : exemplars ≠ []) :
    (nn1Labels exemplars).2 ≠ [] := by
  unfold nn1Labels
  suffices h : ∀ (l : List (ℕ × WithTop ℚ)) (acc : WithTop ℚ × List ℕ),
      acc.2 ≠ [] ∨ acc.1 = ⊤ → l ≠ [] ∨ acc.2 ≠ [] →
      (List.foldl labelStep acc l).2 ≠ [] by
    exact h exemplars (⊤, []) (Or.inr rfl) (Or.inl hne)
  intro l
  induction l with
  | nil =>
    intro acc hinv hne2
    rcases hne2 with h | h
    · exact absurd rfl h
    · exact h
  | cons p l ih =>
    intro acc hinv hne2
    refine ih (labelStep acc p) (Or.inl (labelStep_ne_nil hinv)) ?_
    exact Or.inr (labelStep_ne_nil hinv)

theorem nn1Labels_nodup (exemplars : List (ℕ × WithTop ℚ)) :
    (nn1Labels exemplars).2.Nodup := by
  unfold nn1Labels
  suffices h : ∀ (l : List (ℕ × WithTop ℚ)) (acc : WithTop ℚ × List ℕ),
      acc.2.Nodup → (List.foldl labelStep acc l).2.Nodup by
    exact h exemplars (⊤, []) List.nodup_nil
  intro l
  induction l with
  | nil => intro acc h; exact h
  | cons p l ih => intro acc h; exact ih (labelStep acc p) (labelStep_nodup h)

/-- Every tie label comes from the scanned exemplars. -/
theorem nn1Labels_subset (exemplars : List (ℕ × WithTop ℚ)) :
    ∀ x ∈ (nn1Labels exemplars).2, x ∈ exemplars.map Prod.fst := by
  unfold nn1Labels
  suffices h : ∀ (l : List (ℕ × WithTop ℚ)) (acc : WithTop ℚ × List ℕ) (P : ℕ → Prop),
      (∀ x ∈ acc.2, P x) → (∀ p ∈ l, P p.1) →
      ∀ x ∈ (List.foldl labelStep acc l).2, P x by
    intro x hx
    exact h exemplars (⊤, []) (fun y => y ∈ exemplars.map Prod.fst) (by simp)
      (fun p hp => List.mem_map.2 ⟨p, hp, rfl⟩) x hx
  intro l
  induction l with
  | nil => intro acc P hacc _ x hx; exact hacc x hx
  | cons p l ih =>
    intro acc P hacc hl x hx
    refine ih (labelStep acc p) P ?_ (fun q hq => hl q (List.mem_cons_of_mem p hq)) x hx
    intro y hy
    unfold labelStep at hy
    dsimp only at hy
    split at hy
    · rw [List.mem_singleton] at hy
      subst hy
      exact hl p (List.mem_cons_self p l)
    · split at hy
      · dsimp only at hy
        split at hy
        · exact hacc y hy
        · rw [List.mem_append] at hy
          rcases hy with hy | hy
          · exact hacc y hy
          · rw [List.mem_singleton] at hy
            subst hy
            exact hl p (List.mem_cons_self p l)
      · exact hacc y hy

theorem pick_one_mem {l : List ℕ} (h : l ≠ []) (seed : ℕ) : pick_one seed l ∈ l := by
  unfold pick_one
  have hlen : 0 < l.length := List.length_pos.2 h
  have hlt : seed % l.length < l.length := Nat.mod_lt seed hlen
  rw [List.getD_eq_get l 0 hlt]
  exact List.get_mem l _ hlt

/-- **C7.** The 1-NN scan handles ties and `+∞` distances without panic: for every
nonempty exemplar set, the final tie list is nonempty and duplicate-free, so the
uniform pick over it is well-defined (it returns a scanned label), even when every
distance is `+∞`. -/
theorem claim_C7 (exemplars : List (ℕ × WithTop ℚ)) (hne : exemplars ≠ []) (seed : ℕ) :
    (nn1Labels exemplars).2 ≠ [] ∧ (nn1Labels exemplars).2.Nodup
    ∧ pick_one seed (nn1Labels exemplars).2 ∈ exemplars.map Prod.fst :=
  ⟨nn1Labels_ne_nil exemplars hne, nn1Labels_nodup exemplars,
    nn1Labels_subset exemplars _ (pick_one_mem (nn1Labels_ne_nil exemplars hne) seed)⟩

/-- Witness for C7 at a concrete input (all distances `+∞`). -/
theorem claim_C7_witness :
    ([(4, (⊤ : WithTop ℚ)), (2, ⊤), (4, ⊤)] : List (ℕ × WithTop ℚ)) ≠ [] ∧
      (nn1Labels [(4, (⊤ : WithTop ℚ)), (2, ⊤), (4, ⊤)]).2 ≠ [] ∧
      (nn1Labels [(4, (⊤ : WithTop ℚ)), (2, ⊤), (4, ⊤)]).2.Nodup ∧
      pick_one 1 (nn1Labels [(4, (⊤ : WithTop ℚ)), (2, ⊤), (4, ⊤)]).2
        ∈ ([(4, (⊤ : WithTop ℚ)), (2, ⊤), (4, ⊤)] : List (ℕ × WithTop ℚ)).map Prod.fst := by
  have h := claim_C7 [(4, (⊤ : WithTop ℚ)), (2, ⊤), (4, ⊤)] (by decide) 1
  exact ⟨by decide, h.1, h.2.1, h.2.2⟩

/-! ### C6: routing when every distance is `+INF` -/

/-- Deduplication keeping the first occurrence, as the tie-list append-if-absent does. -/
def dedupKeepFirst (l : List ℕ) : List ℕ :=
  l.foldl (fun acc x => if x ∈ acc then acc else acc ++ [x]) []

theorem labelStep_top (L : List ℕ) (p : ℕ × WithTop ℚ) (hp : p.2 = ⊤) :
    labelStep (⊤, L) p = (⊤, if p.1 ∈ L then L else L ++ [p.1]) := by
  unfold labelStep eapDist
  rw [hp]
  dsimp only
  rw [ite_self]
  rw [if_neg (lt_irrefl (⊤ : WithTop ℚ))]
  rw [if_pos rfl]

theorem nn1Labels_all_top (exemplars : List (ℕ × WithTop ℚ))
    (h : ∀ p ∈ exemplars, p.2 = ⊤) :
    nn1Labels exemplars = (⊤, dedupKeepFirst (exemplars.map Prod.fst)) := by
  unfold nn1Labels dedupKeepFirst
  suffices hgen : ∀ (l : List (ℕ × WithTop ℚ)) (L : List ℕ), (∀ p ∈ l, p.2 = ⊤) →
      List.foldl labelStep (⊤, L) l
        = (⊤, List.foldl (fun acc x => if x ∈ acc then acc else acc ++ [x]) L (l.map Prod.fst)) by
    exact hgen exemplars [] h
  intro l
  induction l with
  | nil => intro L _; rfl
  | cons p l ih =>
    intro L hl
    rw [List.foldl_cons, labelStep_top L p (hl p (List.mem_cons_self p l))]
    rw [List.map_cons, List.foldl_cons]
    exact ih (if p.1 ∈ L then L else L ++ [p.1]) (fun q hq => hl q (List.mem_cons_of_mem p hq))

/-- **C6 counterexample.** Two exemplars with labels 0 and 1, both at distance `+INF`,
identity label-to-branch map: with PRNG draw 0 the row is routed to branch 0,
not to the branch of the largest stored label index (1). -/
theorem claim_C6_counterexample :
    get_branch_index [(0, (⊤ : WithTop ℚ)), (1, ⊤)] id 0 = 0 ∧ (0 : ℕ) ≠ 1 := by
  constructor
  · unfold get_branch_index pick_one
    rw [nn1Labels_all_top [(0, (⊤ : WithTop ℚ)), (1, ⊤)] (by intro p hp; fin_cases hp <;> rfl)]
    rfl
  · decide

/-- **C6 (amended).** When the distance to every stored exemplar evaluates to `+INF`,
every exemplar ties at `bsf = +INF`, so the tie list is the deduplicated (first
occurrence kept) list of all exemplar labels in scan order, and the row is routed
to the branch of a label drawn uniformly by the PRNG from that list — not
deterministically to the largest stored label index. -/
theorem claim_C6 (exemplars : List (ℕ × WithTop ℚ)) (labelToIndex : ℕ → ℕ) (seed : ℕ)
    (h : ∀ p ∈ exemplars, p.2 = ⊤) :
    nn1Labels exemplars = (⊤, dedupKeepFirst (exemplars.map Prod.fst))
    ∧ get_branch_index exemplars labelToIndex seed
        = labelToIndex (pick_one seed (dedupKeepFirst (exemplars.map Prod.fst))) := by
  refine ⟨nn1Labels_all_top exemplars h, ?_⟩
  unfold get_branch_index
  rw [nn1Labels_all_top exemplars h]

/-- Witness for C6 at a concrete input. -/
theorem claim_C6_witness :
    (∀ p ∈ ([(5, (⊤ : WithTop ℚ)), (3, ⊤), (5, ⊤)] : List (ℕ × WithTop ℚ)), p.2 = ⊤) ∧
      nn1Labels [(5, (⊤ : WithTop ℚ)), (3, ⊤), (5, ⊤)]
        = (⊤, dedupKeepFirst ([(5, (⊤ : WithTop ℚ)), (3, ⊤), (5, ⊤)].map Prod.fst))
      ∧ get_branch_index [(5, (⊤ : WithTop ℚ)), (3, ⊤), (5, ⊤)] (fun n => n + 10) 1
        = (fun n => n + 10)
            (pick_one 1 (dedupKeepFirst ([(5, (⊤ : WithTop ℚ)), (3, ⊤), (5, ⊤)].map Prod.fst))) := by
  have hh : ∀ p ∈ ([(5, (⊤ : WithTop ℚ)), (3, ⊤), (5, ⊤)] : List (ℕ × WithTop ℚ)), p.2 = ⊤ := by
    intro p hp; fin_cases hp <;> rfl
  exact ⟨hh, claim_C6 [(5, (⊤ : WithTop ℚ)), (3, ⊤), (5, ⊤)] (fun n => n + 10) 1 hh⟩

/-! ### `TrainSplitter_1NN::generate` (C8) -/

/-- `result_bcmvec[idx][real_label].push_back(query_idx)`: append to the entry of
`label`, creating it if absent (`std::map::operator[]` semantics for this use). -/
def mapPush : List (ℕ × List ℕ) → ℕ → ℕ → List (ℕ × List ℕ)
  | [], label, v => [(label, [v])]
  | (k, vs) :: rest, label, v =>
      if k = label then (k, vs ++ [v]) :: rest else (k, vs) :: mapPush rest label v

/-- The branch a query is routed to: NN1 loop over the exemplars, uniform pick
among the tie labels, then `labels_to_index.at(predicted_label)`.
`dist e q` is the true distance from exemplar row `e` to query row `q`; the
per-call cutoff `bsf` is applied by `eapDist` inside `nn1Labels`. -/
def routeIndex (classes : List ℕ) (exemplars : List (ℕ × ℕ)) (dist : ℕ → ℕ → WithTop ℚ)
    (tieSeed : ℕ → ℕ) (q : ℕ) : ℕ :=
  List.indexOf
    (pick_one (tieSeed q) (nn1Labels (exemplars.map (fun e => (e.1, dist e.2 q)))).2)
    classes

/-- The labels of the incoming ByClassMap, in key order (`bcm.classes()`);
`labels_to_index` maps the i-th class to branch i, i.e. `List.indexOf` here. -/
def splitClasses (bcm : List (ℕ × List ℕ)) : List ℕ := bcm.map Prod.fst

/-- `bcm.pick_one_by_class(prng)`: one exemplar row per class, drawn by the PRNG
(abstracted by a per-class seed). -/
def splitExemplars (bcm : List (ℕ × List ℕ)) (exSeed : ℕ → ℕ) : List (ℕ × ℕ) :=
  bcm.map fun c => (c.1, pick_one (exSeed c.1) c.2)

/-- Routing one query with real label `label`: write it into the branch map chosen
by the NN1 pick. -/
def routeStep (classes : List ℕ) (exemplars : List (ℕ × ℕ)) (dist : ℕ → ℕ → WithTop ℚ)
    (tieSeed : ℕ → ℕ) (label : ℕ) (acc : List (List (ℕ × List ℕ))) (q : ℕ) :
    List (List (ℕ × List ℕ)) :=
  acc.set (routeIndex classes exemplars dist tieSeed q)
    (mapPush (acc.getD (routeIndex classes exemplars dist tieSeed q) []) label q)

/-- The routing loop of `TrainSplitter_1NN::generate`: every row of the incoming
ByClassMap (exemplars included) is routed into `result_bcmvec`, which starts as
`bcm.nb_classes()` empty maps. Queries are visited per class row; the source
iterates the flat sorted `IndexSet(bcm)`, whose order only affects the PRNG
stream, abstracted here by the per-query seed `tieSeed`. -/
def routedOf (bcm : List (ℕ × List ℕ)) (dist : ℕ → ℕ → WithTop ℚ)
    (exSeed tieSeed : ℕ → ℕ) : List (List (ℕ × List ℕ)) :=
  bcm.foldl
    (fun acc c =>
      c.2.foldl (routeStep (splitClasses bcm) (splitExemplars bcm exSeed) dist tieSeed c.1) acc)
    (List.replicate bcm.length [])

/-- `TrainSplitter_1NN::generate`, branch-split part: route all queries, then walk
the classes and replace an empty branch map by the singleton `label -> {}`. -/
def generateSplit (bcm : List (ℕ × List ℕ)) (dist : ℕ → ℕ → WithTop ℚ)
    (exSeed tieSeed : ℕ → ℕ) : List (List (ℕ × List ℕ)) :=
  (splitClasses bcm).map fun label =>
    if (routedOf bcm dist exSeed tieSeed).getD (List.indexOf label (splitClasses bcm)) [] = []
    then [(label, [])]
    else (routedOf bcm dist exSeed tieSeed).getD (List.indexOf label (splitClasses bcm)) []

/-- Row indices stored in one branch map. -/
def mcontents (m : List (ℕ × List ℕ)) : Multiset ℕ := ((m.map Prod.snd).flatten : List ℕ)

/-- Row indices stored across all branch maps. -/
def vcontents : List (List (ℕ × List ℕ)) → Multiset ℕ
  | [] => 0
  | m :: rest => mcontents m + vcontents rest

theorem mcontents_mapPush (m : List (ℕ × List ℕ)) (label v : ℕ) :
    mcontents (mapPush m label v) = v ::ₘ mcontents m := by
  induction m with
  | nil => simp [mapPush, mcontents]
  | cons kv rest ih =>
    obtain ⟨k, vs⟩ := kv
    unfold mapPush
    by_cases hk : k = label
    · rw [if_pos hk]
      simp only [mcontents, List.map_cons, List.flatten_cons] at ih ⊢
      rw [Multiset.cons_coe, Multiset.coe_eq_coe, List.append_assoc]
      exact List.perm_middle
    · rw [if_neg hk]
      simp only [mcontents, List.map_cons, List.flatten_cons] at ih ⊢
      rw [Multiset.cons_coe, Multiset.coe_eq_coe] at ih ⊢
      exact (List.Perm.append_left vs ih).trans List.perm_middle

theorem vcontents_set (acc : List (List (ℕ × List ℕ))) :
    ∀ (idx : ℕ), idx < acc.length → ∀ (label v : ℕ),
      vcontents (acc.set idx (mapPush (acc.getD idx []) label v)) = v ::ₘ vcontents acc := by
  induction acc with
  | nil => intro idx h; simp at h
  | cons a t ih =>
    intro idx h label v
    cases idx with
    | zero =>
      show vcontents (mapPush a label v :: t) = v ::ₘ vcontents (a :: t)
      show mcontents (mapPush a label v) + vcontents t = v ::ₘ (mcontents a + vcontents t)
      rw [mcontents_mapPush, Multiset.cons_add]
    | succ n =>
      have hn : n < t.length := by
        replace h : n + 1 < t.length + 1 := h
        omega
      show vcontents (a :: t.set n (mapPush (t.getD n []) label v)) = v ::ₘ vcontents (a :: t)
      show mcontents a + vcontents (t.set n (mapPush (t.getD n []) label v))
          = v ::ₘ (mcontents a + vcontents t)
      rw [ih n hn label v, Multiset.add_cons]

theorem routeIndex_lt (classes : List ℕ) (exemplars : List (ℕ × ℕ))
    (dist : ℕ → ℕ → WithTop ℚ) (tieSeed : ℕ → ℕ) (q : ℕ)
    (hex : exemplars.map Prod.fst = classes) (hne : exemplars ≠ []) :
    routeIndex classes exemplars dist tieSeed q < classes.length := by
  unfold routeIndex
  have hmne : exemplars.map (fun e => (e.1, dist e.2 q)) ≠ [] := by
    intro hcon
    exact hne (List.map_eq_nil_iff.1 hcon)
  have hties := nn1Labels_ne_nil (exemplars.map (fun e => (e.1, dist e.2 q))) hmne
  have hmem := pick_one_mem hties (tieSeed q)
  have hsub := nn1Labels_subset (exemplars.map (fun e => (e.1, dist e.2 q))) _ hmem
  rw [List.map_map] at hsub
  have hcomp : (Prod.fst ∘ fun e : ℕ × ℕ => ((e.1 : ℕ), dist e.2 q)) = Prod.fst := rfl
  rw [hcomp, hex] at hsub
  exact List.indexOf_lt_length.2 hsub

theorem routeFold_spec (classes : List ℕ) (exemplars : List (ℕ × ℕ))
    (dist : ℕ → ℕ → WithTop ℚ) (tieSeed : ℕ → ℕ) (label : ℕ)
    (hex : exemplars.map Prod.fst = classes) (hne : exemplars ≠ []) :
    ∀ (qs : List ℕ) (acc : List (List (ℕ × List ℕ))), acc.length = classes.length →
      (qs.foldl (routeStep classes exemplars dist tieSeed label) acc).length = classes.length
      ∧ vcontents (qs.foldl (routeStep classes exemplars dist tieSeed label) acc)
          = ↑qs + vcontents acc := by
  intro qs
  induction qs with
  | nil =>
    intro acc hlen
    exact ⟨hlen, by rw [List.foldl_nil]; simp⟩
  | cons q qs ih =>
    intro acc hlen
    rw [List.foldl_cons]
    have hidx : routeIndex classes exemplars dist tieSeed q < acc.length := by
      rw [hlen]; exact routeIndex_lt classes exemplars dist tieSeed q hex hne
    have hlen2 : (routeStep classes exemplars dist tieSeed label acc q).length
        = classes.length := by
      unfold routeStep
      rw [List.length_set, hlen]
    obtain ⟨h1, h2⟩ := ih (routeStep classes exemplars dist tieSeed label acc q) hlen2
    refine ⟨h1, ?_⟩
    rw [h2]
    show (↑qs : Multiset ℕ) + vcontents (acc.set (routeIndex classes exemplars dist tieSeed q)
        (mapPush (acc.getD (routeIndex classes exemplars dist tieSeed q) []) label q))
      = ↑(q :: qs) + vcontents acc
    rw [vcontents_set acc (routeIndex classes exemplars dist tieSeed q) hidx label q]
    rw [Multiset.add_cons, ← Multiset.cons_coe, Multiset.cons_add]

theorem vcontents_replicate (n : ℕ) : vcontents (List.replicate n []) = 0 := by
  induction n with
  | zero => rfl
  | succ k ih =>
    show vcontents ([] :: List.replicate k []) = 0
    show mcontents [] + vcontents (List.replicate k []) = 0
    rw [ih]
    rfl

theorem splitExemplars_fst (bcm : List (ℕ × List ℕ)) (exSeed : ℕ → ℕ) :
    (splitExemplars bcm exSeed).map Prod.fst = splitClasses bcm := by
  unfold splitExemplars splitClasses
  rw [List.map_map]
  rfl

theorem routedOf_spec (bcm : List (ℕ × List ℕ)) (dist : ℕ → ℕ → WithTop ℚ)
    (exSeed tieSeed : ℕ → ℕ) (hne : bcm ≠ []) :
    (routedOf bcm dist exSeed tieSeed).length = bcm.length
    ∧ vcontents (routedOf bcm dist exSeed tieSeed) = ↑((bcm.map Prod.snd).flatten) := by
  have hexne : splitExemplars bcm exSeed ≠ [] := by
    intro hcon
    exact hne (List.map_eq_nil_iff.1 hcon)
  have hcle : (splitClasses bcm).length = bcm.length := List.length_map bcm Prod.fst
  have hgen : ∀ (rows : List (ℕ × List ℕ)) (acc : List (List (ℕ × List ℕ))),
      acc.length = (splitClasses bcm).length →
      (rows.foldl (fun a c =>
          c.2.foldl (routeStep (splitClasses bcm) (splitExemplars bcm exSeed) dist tieSeed c.1) a)
        acc).length = (splitClasses bcm).length
      ∧ vcontents (rows.foldl (fun a c =>
          c.2.foldl (routeStep (splitClasses bcm) (splitExemplars bcm exSeed) dist tieSeed c.1) a)
        acc) = ↑((rows.map Prod.snd).flatten) + vcontents acc := by
    intro rows
    induction rows with
    | nil =>
      intro acc hlen
      exact ⟨hlen, by rw [List.foldl_nil]; simp⟩
    | cons c rest ih =>
      intro acc hlen
      rw [List.foldl_cons]
      obtain ⟨h1, h2⟩ := routeFold_spec (splitClasses bcm) (splitExemplars bcm exSeed)
        dist tieSeed c.1 (splitExemplars_fst bcm exSeed) hexne c.2 acc hlen
      obtain ⟨h3, h4⟩ := ih
        (c.2.foldl (routeStep (splitClasses bcm) (splitExemplars bcm exSeed) dist tieSeed c.1) acc)
        h1
      refine ⟨h3, ?_⟩
      rw [h4, h2, List.map_cons, List.flatten_cons, ← Multiset.coe_add]
      rw [← add_assoc, add_comm ((List.map Prod.snd rest).flatten : Multiset ℕ) (↑c.2 : Multiset ℕ)]
  obtain ⟨h1, h2⟩ := hgen bcm (List.replicate bcm.length [])
    (by rw [List.length_replicate, hcle])
  unfold routedOf
  refine ⟨by rw [h1, hcle], ?_⟩
  rw [h2, vcontents_replicate, add_zero]

theorem vcontents_eq_sum (acc : List (List (ℕ × List ℕ))) :
    vcontents acc = (acc.map mcontents).sum := by
  induction acc with
  | nil => rfl
  | cons a t ih =>
    show mcontents a + vcontents t = (mcontents a :: t.map mcontents).sum
    rw [List.sum_cons, ih]

theorem map_comp_indexOf {α : Type} (l : List ℕ) (h : l.Nodup) (g : ℕ → α) :
    l.map (fun x => g (List.indexOf x l)) = (List.range l.length).map g := by
  apply List.ext_getElem
  · rw [List.length_map, List.length_map, List.length_range]
  · intro i h1 h2
    rw [List.getElem_map, List.getElem_map, List.getElem_range]
    rw [List.indexOf_getElem h]

theorem range_getD_vcontents (acc : List (List (ℕ × List ℕ))) :
    ((List.range acc.length).map (fun i => mcontents (acc.getD i []))).sum = vcontents acc := by
  induction acc with
  | nil => rfl
  | cons a t ih =>
    rw [List.length_cons, List.range_succ_eq_map, List.map_cons, List.map_map]
    rw [List.sum_cons]
    have hc : ((fun i => mcontents (List.getD (a :: t) i [])) ∘ Nat.succ)
        = fun n => mcontents (List.getD t n []) := rfl
    rw [hc, ih]
    rfl

/-- **C8.** For every nonempty ByClassMap with distinct class labels (given: the
classes are `std::map` keys), the 1-NN splitter generator produces exactly one
child per class, no child is the empty map (an empty branch is replaced by the
singleton `label -> {}`), and the multiset of row indices over all children
equals the multiset of row indices of the input — every row lands in exactly
one child. -/
theorem claim_C8 (bcm : List (ℕ × List ℕ)) (dist : ℕ → ℕ → WithTop ℚ)
    (exSeed tieSeed : ℕ → ℕ) (hne : bcm ≠ []) (hkeys : (bcm.map Prod.fst).Nodup) :
    (generateSplit bcm dist exSeed tieSeed).length = bcm.length
    ∧ (∀ child ∈ generateSplit bcm dist exSeed tieSeed, child ≠ [])
    ∧ vcontents (generateSplit bcm dist exSeed tieSeed) = ↑((bcm.map Prod.snd).flatten) := by
  obtain ⟨hrl, hrc⟩ := routedOf_spec bcm dist exSeed tieSeed hne
  have hkeys2 : (splitClasses bcm).Nodup := hkeys
  refine ⟨?_, ?_, ?_⟩
  · unfold generateSplit
    rw [List.length_map]
    exact List.length_map bcm Prod.fst
  · intro child hmem
    unfold generateSplit at hmem
    rw [List.mem_map] at hmem
    obtain ⟨label, _, heq⟩ := hmem
    by_cases hz : (routedOf bcm dist exSeed tieSeed).getD
        (List.indexOf label (splitClasses bcm)) [] = []
    · rw [if_pos hz] at heq
      rw [← heq]
      exact List.cons_ne_nil _ _
    · rw [if_neg hz] at heq
      rw [← heq]
      exact hz
  · unfold generateSplit
    rw [vcontents_eq_sum, List.map_map]
    have hpt : ((fun m => mcontents m) ∘ fun label =>
        if (routedOf bcm dist exSeed tieSeed).getD (List.indexOf label (splitClasses bcm)) [] = []
        then [(label, [])]
        else (routedOf bcm dist exSeed tieSeed).getD (List.indexOf label (splitClasses bcm)) [])
        = fun label => mcontents
            ((routedOf bcm dist exSeed tieSeed).getD (List.indexOf label (splitClasses bcm)) []) := by
      funext label
      show mcontents (if (routedOf bcm dist exSeed tieSeed).getD
          (List.indexOf label (splitClasses bcm)) [] = [] then [(label, [])]
        else (routedOf bcm dist exSeed tieSeed).getD (List.indexOf label (splitClasses bcm)) [])
        = mcontents ((routedOf bcm dist exSeed tieSeed).getD
            (List.indexOf label (splitClasses bcm)) [])
      by_cases hz : (routedOf bcm dist exSeed tieSeed).getD
          (List.indexOf label (splitClasses bcm)) [] = []
      · rw [if_pos hz, hz]
        rfl
      · rw [if_neg hz]
    rw [hpt]
    rw [map_comp_indexOf (splitClasses bcm) hkeys2
      (fun i => mcontents ((routedOf bcm dist exSeed tieSeed).getD i []))]
    have hlen : (splitClasses bcm).length = (routedOf bcm dist exSeed tieSeed).length := by
      rw [hrl]
      exact List.length_map bcm Prod.fst
    rw [hlen, range_getD_vcontents, hrc]

/-- Witness for C8 at a concrete input. -/
theorem claim_C8_witness :
    ([(0, [0, 1]), (1, [2])] : List (ℕ × List ℕ)) ≠ [] ∧
      (([(0, [0, 1]), (1, [2])] : List (ℕ × List ℕ)).map Prod.fst).Nodup ∧
      ((generateSplit [(0, [0, 1]), (1, [2])] (fun _ _ => (⊤ : WithTop ℚ))
          (fun _ => 0) (fun _ => 0)).length
        = ([(0, [0, 1]), (1, [2])] : List (ℕ × List ℕ)).length
      ∧ (∀ child ∈ generateSplit [(0, [0, 1]), (1, [2])] (fun _ _ => (⊤ : WithTop ℚ))
          (fun _ => 0) (fun _ => 0), child ≠ [])
      ∧ vcontents (generateSplit [(0, [0, 1]), (1, [2])] (fun _ _ => (⊤ : WithTop ℚ))
          (fun _ => 0) (fun _ => 0))
        = ↑((([(0, [0, 1]), (1, [2])] : List (ℕ × List ℕ)).map Prod.snd).flatten)) :=
  ⟨by decide, by decide,
    claim_C8 [(0, [0, 1]), (1, [2])] (fun _ _ => (⊤ : WithTop ℚ)) (fun _ => 0) (fun _ => 0)
      (by decide) (by decide)⟩

/-! ### LOOCV CLI exit codes (C9) -/

/-- The run conditions of the LOOCV CLI `main`, in the order the program checks
them: `argcOk` is `argc >= 7`; `cfeOk` is the `<distance:cfe>` suffix parsing as
a double (or being absent); `loadOk` is `load` returning a dataset rather than an
error string; `sanityErrors` the dataset sanity-check messages; then the
`<transform>` and `<distance>` name arguments. -/
structure LoocvCliInput where
  argcOk : Bool
  cfeOk : Bool
  loadOk : Bool
  sanityErrors : List String
  transform : String
  distance : String

/-- The distance dispatch of `main`: "ADTW" and "DTW" run to the final
`return 0`; anything else hits `do_exit(2, "Unknown distance ...")`. -/
def loocvDistanceExit (inp : LoocvCliInput) : ℕ :=
  if inp.distance = "ADTW" then 0 else if inp.distance = "DTW" then 0 else 2

/-- The process exit code of the LOOCV CLI `main`, following its control flow:
`exit(1)` on `argc < 7`; `exit(1)` on an unparsable cfe; `do_exit(1, msg)` on a
load error; on sanity-check errors an error JSON is printed and `exit(0)` runs;
`do_exit(1, "Wrong transform name")` on an unknown transform; then the distance
dispatch. -/
def loocvExitCode (inp : LoocvCliInput) : ℕ :=
  if inp.argcOk = false then 1
  else if inp.cfeOk = false then 1
  else if inp.loadOk = false then 1
  else if inp.sanityErrors ≠ [] then 0
  else if inp.transform = "derivative" then loocvDistanceExit inp
  else if inp.transform = "raw" then loocvDistanceExit inp
  else 1

/-- **C9 counterexample.** An otherwise valid run with the unknown distance name
"MSM" exits with code 2, not 1; and a run failing the dataset sanity check exits
with code 0 (after printing an error JSON), not 1. -/
theorem claim_C9_counterexample :
    loocvExitCode ⟨true, true, true, [], "raw", "MSM"⟩ = 2
    ∧ loocvExitCode ⟨true, true, true, ["train/test mismatch"], "raw", "DTW"⟩ = 0
    ∧ (2 : ℕ) ≠ 1 ∧ (0 : ℕ) ≠ 1 := by
  refine ⟨?_, ?_, by decide, by decide⟩
  · rfl
  · rfl

/-- **C9 (amended).** Exit-code characterization of the LOOCV CLI: code 1 is
returned for bad arguments, an unparsable cfe, a load failure, or an unknown
transform; an unknown distance name exits with code 2; and code 0 is returned
both on success and when the dataset sanity check fails (error JSON printed). -/
theorem claim_C9 (inp : LoocvCliInput) :
    (loocvExitCode inp = 1 ↔ (inp.argcOk = false ∨ inp.cfeOk = false ∨ inp.loadOk = false
        ∨ (inp.argcOk = true ∧ inp.cfeOk = true ∧ inp.loadOk = true ∧ inp.sanityErrors = []
           ∧ inp.transform ≠ "derivative" ∧ inp.transform ≠ "raw")))
    ∧ (loocvExitCode inp = 2 ↔ (inp.argcOk = true ∧ inp.cfeOk = true ∧ inp.loadOk = true
        ∧ inp.sanityErrors = [] ∧ (inp.transform = "derivative" ∨ inp.transform = "raw")
        ∧ inp.distance ≠ "ADTW" ∧ inp.distance ≠ "DTW"))
    ∧ (loocvExitCode inp = 0 ↔ ((inp.argcOk = true ∧ inp.cfeOk = true ∧ inp.loadOk = true
        ∧ inp.sanityErrors ≠ [])
        ∨ (inp.argcOk = true ∧ inp.cfeOk = true ∧ inp.loadOk = true ∧ inp.sanityErrors = []
           ∧ (inp.transform = "derivative" ∨ inp.transform = "raw")
           ∧ (inp.distance = "ADTW" ∨ inp.distance = "DTW")))) := by
  obtain ⟨a, c, l, se, tr, di⟩ := inp
  simp only [loocvExitCode, loocvDistanceExit]
  split_ifs <;> simp_all

/-! ### C2: the tightened bound ignores the last-cell step cost -/

/-- **C2 (code bug).** The source computes `nextafter(cutoff, PINF - la)`: the
subtraction of `la` sits inside the direction argument of `nextafter`, where
`PINF - la = PINF` for every finite `la`.  Hence (1) the computed bound does not
depend on the last-cell step costs at all: any two cost-function triples give the
same `ub`, for every `nextafter` function; and (2) on a concrete input it
diverges from the claimed formula `nextafter(UB, +INF) - la` (code comment
"Tighten the upper bound, taking into account the last alignment"): with all
three last-cell step costs equal to 1 and `UB = 10`, the code's bound is 10
while the claimed bound is 9. -/
theorem claim_C2 :
    (∀ (nextafter : WithTop ℚ → WithTop ℚ → WithTop ℚ) (nl nc : ℕ)
        (dl dc d dl2 dc2 d2 : CostFun) (cutoff : WithTop ℚ),
        msmUbBlock nextafter nl nc dl dc d cutoff
          = msmUbBlock nextafter nl nc dl2 dc2 d2 cutoff)
    ∧ msmUbBlock exactNextafter 1 2 (fun _ _ => 1) (fun _ _ => 1) (fun _ _ => 1)
        ((10 : ℚ) : WithTop ℚ) = ((10 : ℚ) : WithTop ℚ)
    ∧ msmUbBlockSpec exactNextafter 1 2 (fun _ _ => 1) (fun _ _ => 1) (fun _ _ => 1)
        ((10 : ℚ) : WithTop ℚ) = ((9 : ℚ) : WithTop ℚ)
    ∧ ((10 : ℚ) : WithTop ℚ) ≠ ((9 : ℚ) : WithTop ℚ) := by
  refine ⟨?_, ?_, ?_, ?_⟩
  · intro nextafter nl nc dl dc d dl2 dc2 d2 cutoff
    unfold msmUbBlock pinfSubFinite
    by_cases h : 2 ≤ nc
    · rfl
    · rfl
  · unfold msmUbBlock exactNextafter
    rw [if_pos (by norm_num)]
  · unfold msmUbBlockSpec exactNextafter
    rw [if_pos (by norm_num)]
    show ((10 : ℚ) : WithTop ℚ).map
        (fun q => q - min ((1 : ℚ)) (min ((1 : ℚ)) ((1 : ℚ)))) = ((9 : ℚ) : WithTop ℚ)
    rw [WithTop.map_coe]
    norm_num
  · intro h
    have h2 : (10 : ℚ) = 9 := WithTop.coe_inj.1 h
    norm_num at h2

end PF2
